import Mathlib

/-!
Verification development for the python-multipart streaming form parser.

The Python sources (python_multipart/multipart.py and multipart/decoders.py)
are shallowly embedded below: byte strings become lists of naturals, the
byte-driven state machines become explicit state-passing functions, callback
invocations become explicit event lists, and raised exceptions become
Except results.  Machine integers do not overflow in the source (Python),
so plain Nat and Int are used.
-/

namespace PyMultipart

deriving instance DecidableEq for Except

/-- Byte strings are modelled as lists of byte values. -/
abbrev Bytes := List Nat

/-- ASCII constants from the top of multipart.py. -/
def CR : Nat := 13

/-- Line-feed byte. -/
def LF : Nat := 10

/-- Colon byte. -/
def COLON : Nat := 58

/-- Space byte. -/
def SPACE : Nat := 32

/-- Hyphen byte. -/
def HYPHEN : Nat := 45

/-- Ampersand byte. -/
def AMPERSAND : Nat := 38

/-- Semicolon byte. -/
def SEMICOLON : Nat := 59

/-- The equals-sign byte (the querystring machine searches for it). -/
def EQSIGN : Nat := 61

/-- Python slice data[s:e] for 0 <= s <= e (clamping, as Python does). -/
def slice (data : Bytes) (s e : Nat) : Bytes := (data.drop s).take (e - s)

/-- Python int() truncation toward zero on a rational. -/
def pyInt (q : ℚ) : Int := if 0 ≤ q then ⌊q⌋ else -⌊-q⌋

/-- The max_size value stored in a successfully constructed parser:
either a number or float infinity. -/
inductive MaxSize where
  | num (q : ℚ)
  | inf
deriving DecidableEq, Repr

/-- The truncation computed at the top of every parser write method:
if current_size + data_len exceeds max_size, the accepted length is
int(max_size - current_size), otherwise the full length. -/
def truncatedLen (m : MaxSize) (current : Int) (n : Nat) : Int :=
  match m with
  | .inf => n
  | .num q => if (current : ℚ) + (n : ℚ) > q then pyInt (q - (current : ℚ)) else n

theorem pyInt_intCast (k : Int) : pyInt (k : ℚ) = k := by
  unfold pyInt
  rcases le_or_lt (0 : ℚ) (k : ℚ) with h | h
  · rw [if_pos h, Int.floor_intCast]
  · rw [if_neg (not_le.mpr h),
      show -(k : ℚ) = ((-k : Int) : ℚ) by push_cast; ring, Int.floor_intCast]
    ring

/-- For an integral bound M and integral current size, the truncation is
the plain integer difference in the overflow case. -/
theorem truncatedLen_num (M : Int) (current : Int) (n : Nat) :
    truncatedLen (.num (M : ℚ)) current n =
      if current + n > M then M - current else n := by
  unfold truncatedLen
  have hcast : ((current : ℚ) + (n : ℚ) > (M : ℚ)) ↔ (current + (n : Int) > M) := by
    constructor
    · intro h
      exact_mod_cast h
    · intro h
      exact_mod_cast h
  by_cases h : current + (n : Int) > M
  · have hq : (current : ℚ) + (n : ℚ) > (M : ℚ) := hcast.mpr h
    have : (M : ℚ) - (current : ℚ) = ((M - current : Int) : ℚ) := by push_cast; ring
    simp only [hq, if_pos, h, this, pyInt_intCast]
  · have hq : ¬((current : ℚ) + (n : ℚ) > (M : ℚ)) := fun hc => h (hcast.mp hc)
    simp [hq, h]

/-! ## Base64 decoder (multipart/decoders.py) -/

/-- Value of a base64 alphabet character, if it is one. -/
def b64Val (c : Nat) : Option Nat :=
  if 65 ≤ c ∧ c ≤ 90 then some (c - 65)
  else if 97 ≤ c ∧ c ≤ 122 then some (c - 97 + 26)
  else if 48 ≤ c ∧ c ≤ 57 then some (c - 48 + 52)
  else if c = 43 then some 62
  else if c = 47 then some 63
  else none

/-- Whether a byte is in the base64 alphabet (padding aside). -/
def b64IsAlpha (c : Nat) : Bool := (b64Val c).isSome

/-- binascii.a2b_base64 (validate=False) discards bytes that are neither
alphabet characters nor padding before decoding. -/
def b64Kept (data : Bytes) : Bytes := data.filter (fun c => b64IsAlpha c || c == EQSIGN)

/-- Decode one four-character base64 quantum (padding allowed in the last
two positions). -/
def b64Quad (a b c d : Nat) : Option Bytes :=
  match b64Val a, b64Val b with
  | some va, some vb =>
    if c = EQSIGN then
      (if d = EQSIGN then some [va * 4 + vb / 16] else none)
    else
      match b64Val c with
      | some vc =>
        if d = EQSIGN then some [va * 4 + vb / 16, (vb % 16) * 16 + vc / 4]
        else
          match b64Val d with
          | some vd => some [va * 4 + vb / 16, (vb % 16) * 16 + vc / 4, (vc % 4) * 64 + vd]
          | none => none
      | none => none
  | _, _ => none

/-- Decode a sequence of four-character groups; a group containing padding
must be the last one, and a leftover of one to three characters fails
(binascii raises Error on incorrect padding). -/
def b64Groups : Bytes → Option Bytes
  | [] => some []
  | a :: b :: c :: d :: rest =>
    match b64Quad a b c d with
    | some out =>
      if c = EQSIGN ∨ d = EQSIGN then
        if rest = [] then some out else none
      else
        match b64Groups rest with
        | some tail => some (out ++ tail)
        | none => none
    | none => none
  | _ => none

/-- Model of base64.b64decode on bytes (validate=False): drop foreign bytes,
then decode whole quanta, failing on bad padding. -/
def pyB64Decode (data : Bytes) : Option Bytes := b64Groups (b64Kept data)

/-- State of a streaming Base64Decoder: the 0-3 byte cache. -/
structure Base64DecoderState where
  cache : Bytes
deriving DecidableEq, Repr

/-- Base64Decoder.write: prepend the cache, decode the longest multiple-of-four
slice forwarding the decoded bytes to the underlying sink, keep the 0-3
remaining bytes, and return len(data) (the cache-extended length).
Errors model DecodeError. -/
def base64Write (st : Base64DecoderState) (data0 : Bytes) :
    Except Unit (Base64DecoderState × Bytes × Nat) :=
  let data := if 0 < st.cache.length then st.cache ++ data0 else data0
  let decodeLen := data.length / 4 * 4
  let val := data.take decodeLen
  let remainingLen := data.length % 4
  let newCache : Bytes := if 0 < remainingLen then data.drop (data.length - remainingLen) else []
  if 0 < val.length then
    match pyB64Decode val with
    | none => .error ()
    | some decoded => .ok (⟨newCache⟩, decoded, data.length)
  else .ok (⟨newCache⟩, [], data.length)

/-- Base64Decoder.finalize: DecodeError when the cache is non-empty, otherwise
forward finalize to the underlying sink when it has one.  The returned Bool
says whether the underlying finalize was invoked. -/
def base64Finalize (st : Base64DecoderState) (underlyingHasFinalize : Bool) :
    Except Unit Bool :=
  if 0 < st.cache.length then .error () else .ok underlyingHasFinalize

/-! ## Field (multipart.py data model) -/

/-- Cache slot of a Field: the _missing sentinel, the explicit null set by
set_none, or a concrete joined value. -/
inductive FieldCache where
  | missing
  | noneVal
  | val (v : Bytes)
deriving DecidableEq, Repr

/-- The Field data model: name, list of written chunks, cache slot. -/
structure FieldState where
  name : Option Bytes
  chunks : List Bytes
  cache : FieldCache
deriving DecidableEq, Repr

/-- Field.__init__. -/
def fieldInit (name : Option Bytes) : FieldState := ⟨name, [], .missing⟩

/-- Field.on_data: append the chunk, invalidate the cache, return the length. -/
def fieldOnData (f : FieldState) (d : Bytes) : FieldState × Nat :=
  ({ f with chunks := f.chunks ++ [d], cache := .missing }, d.length)

/-- Field.write delegates to on_data. -/
def fieldWrite (f : FieldState) (d : Bytes) : FieldState × Nat := fieldOnData f d

/-- Field.on_end: join the chunks into the cache if it is still missing. -/
def fieldOnEnd (f : FieldState) : FieldState :=
  match f.cache with
  | .missing => { f with cache := .val f.chunks.flatten }
  | _ => f

/-- Field.finalize calls on_end. -/
def fieldFinalize (f : FieldState) : FieldState := fieldOnEnd f

/-- Field.set_none: overwrite the cache with the null sentinel. -/
def fieldSetNone (f : FieldState) : FieldState := { f with cache := .noneVal }

/-- The Field.value property (bytes, or none for the null sentinel). -/
def fieldValue (f : FieldState) : Option Bytes :=
  match f.cache with
  | .missing => some f.chunks.flatten
  | .noneVal => none
  | .val v => some v

/-! ## Octet-stream parser -/

/-- Events emitted by OctetStreamParser (data events carry the slice bytes). -/
inductive OctetEvent where
  | start
  | data (payload : Bytes)
  | endEv
deriving DecidableEq, Repr

/-- OctetStreamParser state: the _started flag and size accounting. -/
structure OctetState where
  started : Bool
  maxSize : MaxSize
  currentSize : Int
deriving DecidableEq, Repr

/-- A freshly constructed OctetStreamParser with a valid max_size. -/
def octetFresh (m : MaxSize) : OctetState := ⟨false, m, 0⟩

/-- OctetStreamParser.write: fire start on the first call, truncate against
max_size, fire one data event with the accepted slice (suppressed when the
slice is empty) and return the accepted length. -/
def octetWrite (s : OctetState) (data : Bytes) : OctetState × List OctetEvent × Int :=
  let startEvs : List OctetEvent := if s.started then [] else [.start]
  let dataLen := truncatedLen s.maxSize s.currentSize data.length
  let dataEvs : List OctetEvent :=
    if (0 : Int) = dataLen then [] else [.data (slice data 0 dataLen.toNat)]
  ({ s with started := true, currentSize := s.currentSize + dataLen },
   startEvs ++ dataEvs, dataLen)

/-- OctetStreamParser.finalize fires the end event. -/
def octetFinalize : List OctetEvent := [.endEv]

/-- Events of a sequence of writes from a given state. -/
def octetRunEvents (s : OctetState) : List Bytes → List OctetEvent
  | [] => []
  | c :: cs =>
    let r := octetWrite s c
    r.2.1 ++ octetRunEvents r.1 cs

/-- Sum of the return values of a sequence of writes from a given state. -/
def octetRunRet (s : OctetState) : List Bytes → Int
  | [] => 0
  | c :: cs =>
    let r := octetWrite s c
    r.2.2 + octetRunRet r.1 cs

/-- Final state of a sequence of writes. -/
def octetRunState (s : OctetState) : List Bytes → OctetState
  | [] => s
  | c :: cs => octetRunState (octetWrite s c).1 cs

/-! ## Byte searching (Python bytes.find) -/

/-- Scan a list for a byte, reporting the running absolute index. -/
def findByteAux (b : Nat) : Bytes → Nat → Option Nat
  | [], _ => none
  | c :: rest, idx => if c = b then some idx else findByteAux b rest (idx + 1)

/-- Python data.find(bytes([b]), start): absolute index of the first hit at
or after start, if any. -/
def byteFindFrom (data : Bytes) (b : Nat) (start : Nat) : Option Nat :=
  findByteAux b (data.drop start) start

/-- Python data.find(bytes([b]), start, stop): bounded single-byte search. -/
def byteFindIn (data : Bytes) (b : Nat) (start stop : Nat) : Option Nat :=
  findByteAux b ((data.take stop).drop start) start

theorem findByteAux_some_ge {b : Nat} :
    ∀ {l : Bytes} {idx p : Nat}, findByteAux b l idx = some p → idx ≤ p := by
  intro l
  induction l with
  | nil => intro idx p h; simp [findByteAux] at h
  | cons c rest ih =>
    intro idx p h
    by_cases hc : c = b
    · simp [findByteAux, hc] at h
      omega
    · simp [findByteAux, hc] at h
      exact Nat.le_of_succ_le (ih h)

theorem byteFindFrom_ge {data : Bytes} {b start p : Nat}
    (h : byteFindFrom data b start = some p) : start ≤ p :=
  findByteAux_some_ge h

theorem byteFindIn_ge {data : Bytes} {b start stop p : Nat}
    (h : byteFindIn data b start stop = some p) : start ≤ p :=
  findByteAux_some_ge h

theorem findByteAux_some_byte {b : Nat} :
    ∀ {l : Bytes} {idx p : Nat}, findByteAux b l idx = some p → l.getD (p - idx) 0 = b := by
  intro l
  induction l with
  | nil => intro idx p h; simp [findByteAux] at h
  | cons c rest ih =>
    intro idx p h
    by_cases hc : c = b
    · simp only [findByteAux, if_pos hc, Option.some.injEq] at h
      subst h
      simpa using hc
    · simp only [findByteAux, if_neg hc] at h
      have hge := findByteAux_some_ge h
      have hstep : p - idx = (p - (idx + 1)) + 1 := by omega
      rw [hstep]
      simpa using ih h

theorem getD_drop_of_le {l : Bytes} {n p : Nat} (h : n ≤ p) :
    (l.drop n).getD (p - n) 0 = l.getD p 0 := by
  have hnp : n + (p - n) = p := by omega
  rw [List.getD_eq_getElem?_getD, List.getD_eq_getElem?_getD, List.getElem?_drop, hnp]

theorem byteFindFrom_byte {data : Bytes} {b start p : Nat}
    (h : byteFindFrom data b start = some p) : data.getD p 0 = b := by
  have hge := findByteAux_some_ge h
  have hb := findByteAux_some_byte h
  rwa [getD_drop_of_le hge] at hb

/-! ## Querystring parser -/

/-- The three querystring machine states. -/
inductive QuerystringState where
  | BEFORE_FIELD
  | FIELD_NAME
  | FIELD_DATA
deriving DecidableEq, Repr

/-- Events emitted by QuerystringParser. -/
inductive QSEvent where
  | fieldStart
  | fieldName (payload : Bytes)
  | fieldData (payload : Bytes)
  | fieldEnd
  | endEv
deriving DecidableEq, Repr

/-- Whether a byte is an ampersand or a semicolon. -/
def isSepByte (c : Nat) : Bool := c == AMPERSAND || c == SEMICOLON

/-- BaseParser.callback on a data event: suppressed when start == end,
otherwise it hands the slice to the registered callback. -/
def dataEvent {α : Type} (mk : Bytes → α) (data : Bytes) (s e : Nat) : List α :=
  if s = e then [] else [mk (slice data s e)]

/-- The separator lookup in _internal_write: the next ampersand if any,
otherwise the next semicolon. -/
def qsSepPos (data : Bytes) (i : Nat) : Option Nat :=
  match byteFindFrom data AMPERSAND i with
  | some p => some p
  | none => byteFindFrom data SEMICOLON i

theorem qsSepPos_ge {data : Bytes} {i p : Nat} (h : qsSepPos data i = some p) : i ≤ p := by
  unfold qsSepPos at h
  cases hf : byteFindFrom data AMPERSAND i with
  | some q =>
    rw [hf] at h
    have h' : some q = some p := h
    cases h'
    exact byteFindFrom_ge hf
  | none =>
    rw [hf] at h
    have h' : byteFindFrom data SEMICOLON i = some p := h
    exact byteFindFrom_ge h'

theorem qsSepPos_byte {data : Bytes} {i p : Nat} (h : qsSepPos data i = some p) :
    isSepByte (data.getD p 0) = true := by
  unfold qsSepPos at h
  cases hf : byteFindFrom data AMPERSAND i with
  | some q =>
    rw [hf] at h
    have h' : some q = some p := h
    cases h'
    rw [byteFindFrom_byte hf]
    decide
  | none =>
    rw [hf] at h
    have h' : byteFindFrom data SEMICOLON i = some p := h
    rw [byteFindFrom_byte h']
    decide

/-- The equals-sign lookup: bounded by the separator when one was found. -/
def qsEqPos (data : Bytes) (i : Nat) : Option Nat → Option Nat
  | some p => byteFindIn data EQSIGN i p
  | none => byteFindFrom data EQSIGN i

theorem qsEqPos_ge {data : Bytes} {i p : Nat} {sp : Option Nat}
    (h : qsEqPos data i sp = some p) : i ≤ p := by
  cases sp with
  | none => exact byteFindFrom_ge h
  | some q => exact byteFindIn_ge h

/-- Tie-break weight used only for the termination measure of the loop. -/
def qsWeight (data : Bytes) (i : Nat) : QuerystringState → Nat
  | .BEFORE_FIELD => if isSepByte (data.getD i 0) then 0 else 2
  | .FIELD_NAME => 1
  | .FIELD_DATA => 1

theorem qsWeight_le (data : Bytes) (i : Nat) (st : QuerystringState) :
    qsWeight data i st ≤ 2 := by
  cases st <;> simp only [qsWeight] <;> first | split <;> omega | omega

/-- The while-loop of QuerystringParser._internal_write.  Arguments: the
strict_parsing flag, the buffer, the (truncated) length, the loop index,
the current machine state and the found_sep flag.  Errors carry the
chunk-relative offset of QuerystringParseError. -/
def qsLoop (strict : Bool) (data : Bytes) (length : Nat) (i : Nat)
    (st : QuerystringState) (foundSep : Bool) :
    Except Nat (QuerystringState × Bool × List QSEvent) :=
  if hlt : i < length then
    match st with
    | .BEFORE_FIELD =>
      if hsep : isSepByte (data.getD i 0) then
        if foundSep then
          if strict then .error i
          else qsLoop strict data length (i + 1) .BEFORE_FIELD foundSep
        else qsLoop strict data length (i + 1) .BEFORE_FIELD true
      else do
        let r ← qsLoop strict data length i .FIELD_NAME false
        return (r.1, r.2.1, QSEvent.fieldStart :: r.2.2)
    | .FIELD_NAME =>
      match heq : qsEqPos data i (qsSepPos data i) with
      | some ep => do
        let r ← qsLoop strict data length (ep + 1) .FIELD_DATA foundSep
        return (r.1, r.2.1, dataEvent .fieldName data i ep ++ r.2.2)
      | none =>
        if strict then
          match qsSepPos data i with
          | some _ => .error i
          | none => .ok (.FIELD_NAME, foundSep, dataEvent .fieldName data i length)
        else
          match hsp : qsSepPos data i with
          | some sp => do
            let r ← qsLoop strict data length sp .BEFORE_FIELD foundSep
            return (r.1, r.2.1,
              dataEvent .fieldName data i sp ++ [QSEvent.fieldEnd] ++ r.2.2)
          | none => .ok (.FIELD_NAME, foundSep, dataEvent .fieldName data i length)
    | .FIELD_DATA =>
      match hsp : qsSepPos data i with
      | some sp => do
        let r ← qsLoop strict data length sp .BEFORE_FIELD foundSep
        return (r.1, r.2.1, dataEvent .fieldData data i sp ++ [QSEvent.fieldEnd] ++ r.2.2)
      | none => .ok (.FIELD_DATA, foundSep, dataEvent .fieldData data i length)
  else
    .ok (st, foundSep, [])
termination_by (length - i) * 3 + qsWeight data i st

decreasing_by
· have h1 := qsWeight_le data (i + 1) QuerystringState.BEFORE_FIELD
  have h2 := qsWeight_le data i QuerystringState.BEFORE_FIELD
  omega
· have h1 := qsWeight_le data (i + 1) QuerystringState.BEFORE_FIELD
  have h2 := qsWeight_le data i QuerystringState.BEFORE_FIELD
  omega
· have hfalse : isSepByte (data.getD i 0) = false := by simp_all
  have hw : qsWeight data i QuerystringState.BEFORE_FIELD = 2 := by
    simp only [qsWeight]
    rw [if_neg (fun hc => by rw [hfalse] at hc; simp at hc)]
  have hw2 : qsWeight data i QuerystringState.FIELD_NAME = 1 := rfl
  rw [hw, hw2]
  omega
· have hge : i ≤ ep := qsEqPos_ge (by assumption)
  have hw : qsWeight data (ep + 1) QuerystringState.FIELD_DATA = 1 := rfl
  have hw2 : qsWeight data i QuerystringState.FIELD_NAME = 1 := rfl
  rw [hw, hw2]
  omega
· have hge : i ≤ sp := qsSepPos_ge (show qsSepPos data i = some sp by assumption)
  have hb := qsSepPos_byte (show qsSepPos data i = some sp by assumption)
  have hw : qsWeight data sp QuerystringState.BEFORE_FIELD = 0 := by
    simp only [qsWeight]
    rw [if_pos hb]
  have hw2 : qsWeight data i QuerystringState.FIELD_NAME = 1 := rfl
  rw [hw, hw2]
  omega
· have hge : i ≤ sp := qsSepPos_ge (show qsSepPos data i = some sp by assumption)
  have hb := qsSepPos_byte (show qsSepPos data i = some sp by assumption)
  have hw : qsWeight data sp QuerystringState.BEFORE_FIELD = 0 := by
    simp only [qsWeight]
    rw [if_pos hb]
  have hw2 : qsWeight data i QuerystringState.FIELD_DATA = 1 := rfl
  rw [hw, hw2]
  omega

/-- Validity of a max_size argument as enforced by the constructors. -/
def MaxSize.valid : MaxSize → Prop
  | .num q => 1 ≤ q
  | .inf => True

/-- QuerystringParser object state. -/
structure QSState where
  st : QuerystringState
  foundSep : Bool
  strict : Bool
  maxSize : MaxSize
  currentSize : Int
deriving DecidableEq, Repr

/-- A freshly constructed QuerystringParser. -/
def qsFresh (strict : Bool) (m : MaxSize) : QSState :=
  ⟨.BEFORE_FIELD, false, strict, m, 0⟩

/-- QuerystringParser._internal_write on a chunk with an already truncated
length: run the loop from index 0, store the final machine state, and
return len(data) - the full, untruncated chunk length, as the source does. -/
def qsInternalWrite (s : QSState) (data : Bytes) (length : Nat) :
    Except Nat (QSState × List QSEvent × Nat) :=
  match qsLoop s.strict data length 0 s.st s.foundSep with
  | .error off => .error off
  | .ok (st', fs', evs) => .ok ({ s with st := st', foundSep := fs' }, evs, data.length)

/-- QuerystringParser.write: truncate against max_size, run the internal
write, add its result to current_size and return it. -/
def qsWrite (s : QSState) (data : Bytes) : Except Nat (QSState × List QSEvent × Nat) :=
  let dataLen := truncatedLen s.maxSize s.currentSize data.length
  match qsInternalWrite s data dataLen.toNat with
  | .error off => .error off
  | .ok (s', evs, l) => .ok ({ s' with currentSize := s.currentSize + l }, evs, l)

/-- QuerystringParser.finalize: field_end only when the machine sits in
FIELD_DATA, then the end event. -/
def qsFinalizeEvents (s : QSState) : List QSEvent :=
  (if s.st = QuerystringState.FIELD_DATA then [QSEvent.fieldEnd] else []) ++ [QSEvent.endEv]

/-- A sequence of querystring writes: final state, all events, sum of returns. -/
def qsRun (s : QSState) : List Bytes → Except Nat (QSState × List QSEvent × Nat)
  | [] => .ok (s, [], 0)
  | c :: cs => do
    let (s', evs, l) ← qsWrite s c
    let (s'', evs', tot) ← qsRun s' cs
    return (s'', evs ++ evs', l + tot)

theorem exceptBind_ok {ε α β : Type} {x : Except ε α} {f : α → Except ε β} {b : β}
    (h : (x >>= f) = .ok b) : ∃ a, x = .ok a ∧ f a = .ok b := by
  cases x with
  | error e => exact Except.noConfusion h
  | ok a => exact ⟨a, rfl, h⟩

theorem exceptBind_ok_eval {ε α β : Type} (a : α) (f : α → Except ε β) :
    (Except.ok (ε := ε) a >>= f) = f a := rfl

theorem exceptBind_error_eval {ε α β : Type} (e : ε) (f : α → Except ε β) :
    (Except.error (α := α) e >>= f) = Except.error e := rfl

/-- Coordinator state for the x-www-form-urlencoded path of FormParser:
the shared name_buffer, the Field being built, finished Fields in on_field
order. -/
structure QSCoord where
  nameBuf : List Bytes
  f : Option FieldState
  fields : List FieldState
deriving DecidableEq, Repr

/-- One FormParser querystring callback (on_field_name / on_field_data /
on_field_end closures from FormParser.__init__). -/
def qsCoordStep (c : QSCoord) : QSEvent → QSCoord
  | .fieldStart => c
  | .fieldName payload => { c with nameBuf := c.nameBuf ++ [payload] }
  | .fieldData payload =>
    match c.f with
    | none =>
      let f0 := fieldInit (some c.nameBuf.flatten)
      { c with nameBuf := [], f := some (fieldWrite f0 payload).1 }
    | some f0 => { c with f := some (fieldWrite f0 payload).1 }
  | .fieldEnd =>
    match c.f with
    | none =>
      let f0 := fieldSetNone (fieldInit (some c.nameBuf.flatten))
      { c with nameBuf := [], f := none, fields := c.fields ++ [fieldFinalize f0] }
    | some f0 => { c with f := none, fields := c.fields ++ [fieldFinalize f0] }
  | .endEv => c

/-- Fold the coordinator over an event stream from its initial state. -/
def qsCoordRun (evs : List QSEvent) : QSCoord := evs.foldl qsCoordStep ⟨[], none, []⟩

/-! ## Octet accounting and start-event lemmas -/

/-- Total length of a chunk sequence. -/
def totalLen (chunks : List Bytes) : Nat := (chunks.map List.length).sum

theorem octetWrite_num (M c : Int) (hcM : c ≤ M) (b : Bool) (data : Bytes) :
    octetWrite ⟨b, .num (M : ℚ), c⟩ data =
      ({ started := true, maxSize := .num (M : ℚ),
         currentSize := min (c + data.length) M },
       ((if b then [] else [OctetEvent.start]) ++
        (if (0 : Int) = min (c + data.length) M - c then []
         else [OctetEvent.data (slice data 0 (min (c + data.length) M - c).toNat)])),
       min (c + data.length) M - c) := by
  have harith : (if c + (data.length : Int) > M then M - c else (data.length : Int)) =
      min (c + data.length) M - c := by
    split <;> omega
  have hcur : c + (min (c + data.length) M - c) = min (c + data.length) M := by omega
  unfold octetWrite
  rw [truncatedLen_num]
  simp only [harith, hcur]

/-- Count of start events in an octet event stream. -/
def countStart : List OctetEvent → Nat
  | [] => 0
  | .start :: rest => countStart rest + 1
  | _ :: rest => countStart rest

theorem countStart_append (a b : List OctetEvent) :
    countStart (a ++ b) = countStart a + countStart b := by
  induction a with
  | nil => simp [countStart]
  | cons e rest ih =>
    cases e <;> simp [countStart, ih] <;> omega

theorem octetWrite_started_state (s : OctetState) (data : Bytes) :
    (octetWrite s data).1.started = true := rfl

theorem octetWrite_no_start (s : OctetState) (data : Bytes) (h : s.started = true) :
    countStart (octetWrite s data).2.1 = 0 := by
  unfold octetWrite
  rw [h]
  by_cases h0 : (0 : Int) = truncatedLen s.maxSize s.currentSize data.length <;>
    simp [h0, countStart]

theorem octetRunEvents_no_start (cs : List Bytes) :
    ∀ s : OctetState, s.started = true → countStart (octetRunEvents s cs) = 0 := by
  induction cs with
  | nil => intro s _; simp [octetRunEvents, countStart]
  | cons c cs ih =>
    intro s h
    unfold octetRunEvents
    have h1 := octetWrite_no_start s c h
    have h2 := ih (octetWrite s c).1 (octetWrite_started_state s c)
    simp only [countStart_append, h1, h2]

theorem totalLen_cons (c : Bytes) (cs : List Bytes) :
    totalLen (c :: cs) = c.length + totalLen cs := by
  simp [totalLen]

theorem truncatedLen_valid_zero (m : MaxSize) (hm : m.valid) : truncatedLen m 0 0 = 0 := by
  cases m with
  | inf => rfl
  | num q =>
    have h1 : (1 : ℚ) ≤ q := hm
    have hneg : ¬(((0 : Int) : ℚ) + ((0 : Nat) : ℚ) > q) := by push_cast; linarith
    simp only [truncatedLen]
    rw [if_neg hneg]
    rfl

theorem octetRun_num (M : Int) :
    ∀ (chunks : List Bytes) (b : Bool) (c : Int), c ≤ M →
      octetRunRet ⟨b, .num (M : ℚ), c⟩ chunks = min (c + totalLen chunks) M - c := by
  intro chunks
  induction chunks with
  | nil =>
    intro b c hc
    simp only [octetRunRet, totalLen, List.map_nil, List.sum_nil]
    omega
  | cons ch cs ih =>
    intro b c hc
    unfold octetRunRet
    rw [octetWrite_num M c hc]
    have hle : min (c + ch.length) M ≤ M := by omega
    have hrec := ih true (min (c + ch.length) M) hle
    simp only [hrec, totalLen_cons]
    push_cast
    omega

theorem octetRun_inf :
    ∀ (chunks : List Bytes) (b : Bool) (c : Int),
      octetRunRet ⟨b, .inf, c⟩ chunks = totalLen chunks := by
  intro chunks
  induction chunks with
  | nil => intro b c; simp [octetRunRet, totalLen]
  | cons ch cs ih =>
    intro b c
    unfold octetRunRet octetWrite truncatedLen
    simp only []
    rw [ih]
    simp [totalLen]

theorem qsInternalWrite_ret {s : QSState} {data : Bytes} {length : Nat}
    {s' : QSState} {evs : List QSEvent} {l : Nat}
    (h : qsInternalWrite s data length = .ok (s', evs, l)) : l = data.length := by
  unfold qsInternalWrite at h
  cases hq : qsLoop s.strict data length 0 s.st s.foundSep with
  | error e => rw [hq] at h; cases h
  | ok r =>
    rw [hq] at h
    obtain ⟨st', fs', evs'⟩ := r
    cases h
    rfl

theorem qsWrite_ret {s : QSState} {data : Bytes} {s' : QSState}
    {evs : List QSEvent} {l : Nat}
    (h : qsWrite s data = .ok (s', evs, l)) : l = data.length := by
  unfold qsWrite at h
  cases hi : qsInternalWrite s data (truncatedLen s.maxSize s.currentSize data.length).toNat with
  | error e =>
    simp only [hi] at h
    exact Except.noConfusion h
  | ok r =>
    obtain ⟨s'', evs'', l''⟩ := r
    simp only [hi, Except.ok.injEq, Prod.mk.injEq] at h
    have hl := qsInternalWrite_ret hi
    omega

theorem qsRun_ret :
    ∀ (chunks : List Bytes) (s s' : QSState) (evs : List QSEvent) (tot : Nat),
      qsRun s chunks = .ok (s', evs, tot) → tot = totalLen chunks := by
  intro chunks
  induction chunks with
  | nil =>
    intro s s' evs tot h
    cases h
    rfl
  | cons c cs ih =>
    intro s s' evs tot h
    unfold qsRun at h
    obtain ⟨⟨s1, evs1, l1⟩, hw, h2⟩ := exceptBind_ok h
    obtain ⟨⟨s2, evs2, tot2⟩, hr, h3⟩ := exceptBind_ok h2
    cases h3
    have h1 := qsWrite_ret hw
    have hih := ih _ _ _ _ hr
    rw [totalLen_cons]
    omega

/-! ## Multipart parser -/

/-- The thirteen multipart machine states. -/
inductive MultipartState where
  | START
  | START_BOUNDARY
  | HEADER_FIELD_START
  | HEADER_FIELD
  | HEADER_VALUE_START
  | HEADER_VALUE
  | HEADER_VALUE_ALMOST_DONE
  | HEADERS_ALMOST_DONE
  | PART_DATA_START
  | PART_DATA
  | PART_DATA_END
  | END_BOUNDARY
  | END
deriving DecidableEq, Repr

/-- Events emitted by MultipartParser. -/
inductive MPEvent where
  | partBegin
  | partData (payload : Bytes)
  | partEnd
  | headerBegin
  | headerField (payload : Bytes)
  | headerValue (payload : Bytes)
  | headerEnd
  | headersFinished
  | endEv
deriving DecidableEq, Repr

/-- The two flag-word bits. -/
structure MPFlags where
  partBoundary : Bool
  lastBoundary : Bool
deriving DecidableEq, Repr

/-- The marks table: current start offset of the in-flight slice for each of
the three data event names (negative values carry over from the previous
chunk, as in the source). -/
structure MPMarks where
  headerField : Option Int
  headerValue : Option Int
  partData : Option Int
deriving DecidableEq, Repr

/-- The stored match pattern: self.boundary = b"\r\n--" + boundary. -/
def mpPattern (token : Bytes) : Bytes := [CR, LF, HYPHEN, HYPHEN] ++ token

theorem mpPattern_length (token : Bytes) : (mpPattern token).length = token.length + 4 := by
  simp [mpPattern]

/-- Membership in TOKEN_CHARS_SET (RFC 7230 token characters). -/
def isTokenChar (c : Nat) : Bool :=
  (65 ≤ c && c ≤ 90) || (97 ≤ c && c ≤ 122) || (48 ≤ c && c ≤ 57) ||
    ([33, 35, 36, 37, 38, 39, 42, 43, 45, 46, 94, 95, 96, 124, 126] : List Nat).contains c

/-- Whether pat occurs in data at position p (all of it in range). -/
def matchAt (data pat : Bytes) (p : Nat) : Bool := slice data p (p + pat.length) == pat

/-- Scan positions p, p+1, ... for the first occurrence of pat that ends at
or before stop. -/
def mpFindAux (data pat : Bytes) (stop : Nat) (p : Nat) : Option Nat :=
  if p + pat.length ≤ stop then
    if matchAt data pat p then some p else mpFindAux data pat stop (p + 1)
  else none
termination_by stop + 1 - p

/-- Python data.find(pat, start, stop): index of the first occurrence of
pat inside data[start:stop], if any. -/
def mpFind (data pat : Bytes) (start stop : Nat) : Option Nat :=
  mpFindAux data pat stop start

theorem mpFindAux_ge {data pat : Bytes} {stop : Nat} :
    ∀ (n p q : Nat), stop + 1 - p ≤ n → mpFindAux data pat stop p = some q → p ≤ q := by
  intro n
  induction n with
  | zero =>
    intro p q hn h
    rw [mpFindAux.eq_def] at h
    rw [if_neg (by omega)] at h
    exact Option.noConfusion h
  | succ n ih =>
    intro p q hn h
    rw [mpFindAux.eq_def] at h
    split at h
    · split at h
      · cases h
        exact Nat.le_refl _
      · have hq := ih (p + 1) q (by omega) h
        omega
    · exact Option.noConfusion h

theorem mpFind_ge {data pat : Bytes} {start stop q : Nat}
    (h : mpFind data pat start stop = some q) : start ≤ q :=
  mpFindAux_ge (stop + 1 - start) start q (Nat.le_refl _) h

/-- The inner scan of the PART_DATA fast path: advance while i < length - 1
and data[i] is not the first boundary byte. -/
def mpScan (data : Bytes) (length : Nat) (i : Nat) (b0 : Nat) : Nat :=
  if i < length - 1 ∧ data.getD i 0 ≠ b0 then mpScan data length (i + 1) b0 else i
termination_by length - 1 - i

theorem mpScan_ge_aux (data : Bytes) (length : Nat) (b0 : Nat) :
    ∀ (n i : Nat), length - 1 - i ≤ n → i ≤ mpScan data length i b0 := by
  intro n
  induction n with
  | zero =>
    intro i hn
    rw [mpScan.eq_def]
    rw [if_neg (fun hc => absurd hc.1 (by omega))]
  | succ n ih =>
    intro i hn
    rw [mpScan.eq_def]
    split
    · rename_i hcond
      have := ih (i + 1) (by omega)
      omega
    · exact Nat.le_refl _

theorem mpScan_ge (data : Bytes) (length : Nat) (i : Nat) (b0 : Nat) :
    i ≤ mpScan data length i b0 :=
  mpScan_ge_aux data length b0 (length - 1 - i) i (Nat.le_refl _)

/-- The data_callback closure of _internal_write for one event name: takes
the current mark, the chunk-relative end offset (an Int; negative values
carry over from the previous chunk) and the remaining flag; returns the
updated mark and the events emitted.  The look-behind branches test
self.flags, i.e. the flag word as it was when write was entered (the local
flag variable of the loop is only stored back at the end of the write). -/
def mpDataCallback (mk : Bytes → MPEvent) (boundary : Bytes) (entryFlags : MPFlags)
    (data : Bytes) (length : Nat) (mark : Option Int) (endI : Int) (remaining : Bool) :
    Option Int × List MPEvent :=
  match mark with
  | none => (none, [])
  | some markedIndex =>
    let evs : List MPEvent :=
      if endI ≤ markedIndex then []
      else if 0 ≤ markedIndex then
        dataEvent mk data markedIndex.toNat endI.toNat
      else
        let lookbehindLen := (-markedIndex).toNat
        let lbEvs : List MPEvent :=
          if lookbehindLen ≤ boundary.length then
            dataEvent mk boundary 0 lookbehindLen
          else if entryFlags.partBoundary then
            dataEvent mk (boundary ++ [CR, LF]) 0 lookbehindLen
          else if entryFlags.lastBoundary then
            dataEvent mk (boundary ++ [HYPHEN, HYPHEN, CR, LF]) 0 lookbehindLen
          else []
        lbEvs ++ (if 0 < endI then dataEvent mk data 0 endI.toNat else [])
    (if remaining then some (endI - (length : Int)) else none, evs)

/-- Result of one _internal_write loop: machine state, boundary-match index,
flag word, marks, events. -/
abbrev MPLoopRes := MultipartState × Nat × MPFlags × MPMarks × List MPEvent

/-- Prepend events to a loop result. -/
def mpPrepend (evs : List MPEvent) : Except Nat MPLoopRes → Except Nat MPLoopRes
  | .error e => .error e
  | .ok (st, idx, fl, mk, evs') => .ok (st, idx, fl, mk, evs ++ evs')

/-- Tie-break weight for the loop termination measure. -/
def mpWeight (st : MultipartState) (index : Nat) : Nat :=
  match st with
  | .START => 1
  | .HEADER_FIELD_START => 1
  | .HEADER_VALUE_START => 1
  | .PART_DATA_START => 3
  | .PART_DATA => if index = 0 then 1 else 2
  | _ => 0

theorem mpWeight_le (st : MultipartState) (index : Nat) : mpWeight st index ≤ 3 := by
  cases st <;> simp only [mpWeight] <;> first | (split <;> omega) | omega

/-- The cursor/index adjustment at the top of the PART_DATA case: when the
match index is 0, either jump to the last byte of an outright boundary
occurrence (found with data.find) or skip ahead to the first candidate
byte in the ≤ boundary-length tail; otherwise keep the position. -/
def mpPartDataJump (data boundary : Bytes) (length i index : Nat) : Nat × Nat :=
  if index = 0 then
    match mpFind data boundary i length with
    | some i0 => (i0 + boundary.length - 1, boundary.length - 1)
    | none => (mpScan data length (max i (length - boundary.length)) (boundary.getD 0 0), 0)
  else (i, index)

theorem mpPartDataJump_fst_ge (data boundary : Bytes) (length i index : Nat)
    (hb : 1 ≤ boundary.length) : i ≤ (mpPartDataJump data boundary length i index).1 := by
  unfold mpPartDataJump
  split
  · split
    · rename_i i0 hfind
      have := mpFind_ge hfind
      dsimp only
      omega
    · dsimp only
      exact Nat.le_trans (Nat.le_max_left _ _) (mpScan_ge _ _ _ _)
  · exact Nat.le_refl _

theorem mpPartDataJump_of_pos (data boundary : Bytes) (length i : Nat) {index : Nat}
    (h : 0 < index) : mpPartDataJump data boundary length i index = (i, index) := by
  unfold mpPartDataJump
  rw [if_neg (by omega)]

/-- The while-loop of MultipartParser._internal_write.  The boundary is the
stored pattern b"\r\n--" + token (so its length is at least 4, which the
loop termination argument uses); entryFlags is self.flags as of write entry
(used by the look-behind of data_callback); the loop-local state, index,
flag and marks variables are threaded explicitly.  Errors carry the offset
of the MultipartParseError. -/
def mpLoop (boundary : Bytes) (hb : 4 ≤ boundary.length) (entryFlags : MPFlags)
    (data : Bytes) (length : Nat) (i : Nat) (st : MultipartState) (index : Nat)
    (flags : MPFlags) (marks : MPMarks) : Except Nat MPLoopRes :=
  if hlt : i < length then
    match st with
    | .START =>
      if data.getD i 0 = CR ∨ data.getD i 0 = LF then
        mpLoop boundary hb entryFlags data length (i + 1) .START index flags marks
      else
        mpLoop boundary hb entryFlags data length i .START_BOUNDARY 0 flags marks
    | .START_BOUNDARY =>
      if index = boundary.length - 2 then
        if data.getD i 0 = HYPHEN then
          mpLoop boundary hb entryFlags data length (i + 1) .END_BOUNDARY (index + 1) flags marks
        else if data.getD i 0 ≠ CR then .error i
        else
          mpLoop boundary hb entryFlags data length (i + 1) .START_BOUNDARY (index + 1) flags marks
      else if index = boundary.length - 2 + 1 then
        if data.getD i 0 ≠ LF then .error i
        else
          mpPrepend [.partBegin]
            (mpLoop boundary hb entryFlags data length (i + 1) .HEADER_FIELD_START 0 flags marks)
      else
        if data.getD i 0 ≠ boundary.getD (index + 2) 0 then .error i
        else
          mpLoop boundary hb entryFlags data length (i + 1) .START_BOUNDARY (index + 1) flags marks
    | .HEADER_FIELD_START =>
      mpPrepend (if data.getD i 0 ≠ CR then [.headerBegin] else [])
        (mpLoop boundary hb entryFlags data length i .HEADER_FIELD 0 flags
          { marks with headerField := some (i : Int) })
    | .HEADER_FIELD =>
      if data.getD i 0 = CR ∧ index = 0 then
        mpLoop boundary hb entryFlags data length (i + 1) .HEADERS_ALMOST_DONE index flags
          { marks with headerField := none }
      else
        if data.getD i 0 = COLON then
          if index + 1 = 1 then .error i
          else
            mpPrepend (mpDataCallback .headerField boundary entryFlags data length
                marks.headerField (i : Int) false).2
              (mpLoop boundary hb entryFlags data length (i + 1) .HEADER_VALUE_START
                (index + 1) flags
                { marks with headerField := (mpDataCallback .headerField boundary entryFlags
                    data length marks.headerField (i : Int) false).1 })
        else if ¬ isTokenChar (data.getD i 0) then .error i
        else
          mpLoop boundary hb entryFlags data length (i + 1) .HEADER_FIELD (index + 1) flags marks
    | .HEADER_VALUE_START =>
      if data.getD i 0 = SPACE then
        mpLoop boundary hb entryFlags data length (i + 1) .HEADER_VALUE_START index flags marks
      else
        mpLoop boundary hb entryFlags data length i .HEADER_VALUE index flags
          { marks with headerValue := some (i : Int) }
    | .HEADER_VALUE =>
      if data.getD i 0 = CR then
        mpPrepend ((mpDataCallback .headerValue boundary entryFlags data length
            marks.headerValue (i : Int) false).2 ++ [.headerEnd])
          (mpLoop boundary hb entryFlags data length (i + 1) .HEADER_VALUE_ALMOST_DONE index
            flags
            { marks with headerValue := (mpDataCallback .headerValue boundary entryFlags
                data length marks.headerValue (i : Int) false).1 })
      else
        mpLoop boundary hb entryFlags data length (i + 1) .HEADER_VALUE index flags marks
    | .HEADER_VALUE_ALMOST_DONE =>
      if data.getD i 0 ≠ LF then .error i
      else mpLoop boundary hb entryFlags data length (i + 1) .HEADER_FIELD_START index flags marks
    | .HEADERS_ALMOST_DONE =>
      if data.getD i 0 ≠ LF then .error i
      else
        mpPrepend [.headersFinished]
          (mpLoop boundary hb entryFlags data length (i + 1) .PART_DATA_START index flags marks)
    | .PART_DATA_START =>
      mpLoop boundary hb entryFlags data length i .PART_DATA index flags
        { marks with partData := some (i : Int) }
    | .PART_DATA =>
      -- prev_index := index; when index == 0, first find the boundary outright
      -- (jumping to its last byte) or skip ahead hunting for its first byte.
      match hpos : mpPartDataJump data boundary length i index with
      | (ipos, idx1) =>
      if idx1 < boundary.length then
        if boundary.getD idx1 0 = data.getD ipos 0 then
          mpLoop boundary hb entryFlags data length (ipos + 1) .PART_DATA (idx1 + 1) flags marks
        else if hpi : 0 < index then
          mpLoop boundary hb entryFlags data length ipos .PART_DATA 0 flags marks
        else
          mpLoop boundary hb entryFlags data length (ipos + 1) .PART_DATA 0 flags marks
      else if idx1 = boundary.length then
        if data.getD ipos 0 = CR then
          mpLoop boundary hb entryFlags data length (ipos + 1) .PART_DATA (idx1 + 1)
            { flags with partBoundary := true } marks
        else if data.getD ipos 0 = HYPHEN then
          mpLoop boundary hb entryFlags data length (ipos + 1) .PART_DATA (idx1 + 1)
            { flags with lastBoundary := true } marks
        else if hpi : 0 < index then
          mpLoop boundary hb entryFlags data length ipos .PART_DATA 0 flags marks
        else
          mpLoop boundary hb entryFlags data length (ipos + 1) .PART_DATA 0 flags marks
      else if idx1 = boundary.length + 1 then
        if flags.partBoundary then
          if data.getD ipos 0 = LF then
            mpPrepend ((mpDataCallback .partData boundary entryFlags data length
                marks.partData ((ipos : Int) - (idx1 : Int)) false).2 ++ [.partEnd, .partBegin])
              (mpLoop boundary hb entryFlags data length (ipos + 1) .HEADER_FIELD_START 0
                { flags with partBoundary := false }
                { marks with partData := (mpDataCallback .partData boundary entryFlags data
                    length marks.partData ((ipos : Int) - (idx1 : Int)) false).1 })
          else if hpi : 0 < index then
            mpLoop boundary hb entryFlags data length ipos .PART_DATA 0
              { flags with partBoundary := false } marks
          else
            mpLoop boundary hb entryFlags data length (ipos + 1) .PART_DATA 0
              { flags with partBoundary := false } marks
        else if flags.lastBoundary then
          if data.getD ipos 0 = HYPHEN then
            mpPrepend ((mpDataCallback .partData boundary entryFlags data length
                marks.partData ((ipos : Int) - (idx1 : Int)) false).2 ++ [.partEnd, .endEv])
              (mpLoop boundary hb entryFlags data length (ipos + 1) .END idx1 flags
                { marks with partData := (mpDataCallback .partData boundary entryFlags data
                    length marks.partData ((ipos : Int) - (idx1 : Int)) false).1 })
          else if hpi : 0 < index then
            mpLoop boundary hb entryFlags data length ipos .PART_DATA 0 flags marks
          else
            mpLoop boundary hb entryFlags data length (ipos + 1) .PART_DATA 0 flags marks
        else
          mpLoop boundary hb entryFlags data length (ipos + 1) .PART_DATA idx1 flags marks
      else
        mpLoop boundary hb entryFlags data length (ipos + 1) .PART_DATA idx1 flags marks
    | .PART_DATA_END => .error i
    | .END_BOUNDARY =>
      if index = boundary.length - 2 + 1 then
        if data.getD i 0 ≠ HYPHEN then .error i
        else
          mpPrepend [.endEv]
            (mpLoop boundary hb entryFlags data length (i + 1) .END (index + 1) flags marks)
      else
        mpLoop boundary hb entryFlags data length (i + 1) .END_BOUNDARY index flags marks
    | .END =>
      if data.getD i 0 = CR ∧ i + 1 < length ∧ data.getD (i + 1) 0 = LF then
        mpLoop boundary hb entryFlags data length (i + 2) .END index flags marks
      else
        .ok (.END, index, flags, marks, [])
  else
    .ok (st, index, flags, marks, [])
termination_by (length - i) * 4 + mpWeight st index
decreasing_by
all_goals
  simp only [mpWeight]
all_goals
  first
    | omega
    | (repeat' split
       all_goals omega)
    | (have hj : i ≤ ipos := by
         have h := mpPartDataJump_fst_ge data boundary length i index (by omega)
         rw [hpos] at h
         exact h
       try (have hpp := mpPartDataJump_of_pos data boundary length i
              (show 0 < index by omega)
            rw [hpos] at hpp
            injection hpp with hp1 hp2
            subst hp1
            subst hp2)
       repeat' split
       all_goals first
         | omega
         | simp_all)

theorem mpPattern_four_le (token : Bytes) : 4 ≤ (mpPattern token).length := by
  rw [mpPattern_length]
  omega

/-- The three end-of-write data_callback flushes (remaining = true), in
source order, threading the marks table. -/
def mpFlush (boundary : Bytes) (entryFlags : MPFlags) (data : Bytes) (length : Nat)
    (marks : MPMarks) (index : Nat) : MPMarks × List MPEvent :=
  let r1 := mpDataCallback .headerField boundary entryFlags data length
    marks.headerField (length : Int) true
  let r2 := mpDataCallback .headerValue boundary entryFlags data length
    marks.headerValue (length : Int) true
  let r3 := mpDataCallback .partData boundary entryFlags data length
    marks.partData ((length : Int) - (index : Int)) true
  (⟨r1.1, r2.1, r3.1⟩, r1.2 ++ r2.2 ++ r3.2)

/-- MultipartParser object state; the stored pattern self.boundary is
mpPattern token. -/
structure MPState where
  state : MultipartState
  index : Nat
  flags : MPFlags
  marks : MPMarks
  token : Bytes
  maxSize : MaxSize
  currentSize : Int
deriving DecidableEq, Repr

/-- A freshly constructed MultipartParser with the given boundary token. -/
def mpFresh (token : Bytes) (m : MaxSize) : MPState :=
  ⟨.START, 0, ⟨false, false⟩, ⟨none, none, none⟩, token, m, 0⟩

/-- MultipartParser._internal_write: run the loop from index 0, flush the
three in-flight spans against the chunk end, store the machine variables
back, return length. -/
def mpInternalWrite (s : MPState) (data : Bytes) (length : Nat) :
    Except Nat (MPState × List MPEvent × Nat) :=
  match mpLoop (mpPattern s.token) (mpPattern_four_le s.token) s.flags data length 0
      s.state s.index s.flags s.marks with
  | .error off => .error off
  | .ok (st', idx', fl', mk', evs) =>
    let r := mpFlush (mpPattern s.token) s.flags data length mk' idx'
    .ok ({ s with state := st', index := idx', flags := fl', marks := r.1 }, evs ++ r.2, length)

/-- MultipartParser.write: truncate against max_size, run the internal
write, account the returned (truncated) length. -/
def mpWrite (s : MPState) (data : Bytes) : Except Nat (MPState × List MPEvent × Nat) :=
  let dataLen := truncatedLen s.maxSize s.currentSize data.length
  match mpInternalWrite s data dataLen.toNat with
  | .error off => .error off
  | .ok (s', evs, l) => .ok ({ s' with currentSize := s.currentSize + l }, evs, l)

/-- MultipartParser.finalize is a no-op: it emits nothing and checks
nothing. -/
def mpFinalizeEvents : List MPEvent := []

/-- A sequence of multipart writes: final state, all events, sum of returns. -/
def mpRun (s : MPState) : List Bytes → Except Nat (MPState × List MPEvent × Nat)
  | [] => .ok (s, [], 0)
  | c :: cs => do
    let (s', evs, l) ← mpWrite s c
    let (s'', evs', tot) ← mpRun s' cs
    return (s'', evs ++ evs', l + tot)

theorem mpInternalWrite_ok {s : MPState} {data : Bytes} {length : Nat}
    {s' : MPState} {evs : List MPEvent} {l : Nat}
    (h : mpInternalWrite s data length = .ok (s', evs, l)) :
    l = length ∧ s'.maxSize = s.maxSize ∧ s'.currentSize = s.currentSize := by
  unfold mpInternalWrite at h
  cases hq : mpLoop (mpPattern s.token) (mpPattern_four_le s.token) s.flags data length 0
      s.state s.index s.flags s.marks with
  | error e =>
    rw [hq] at h
    exact Except.noConfusion h
  | ok r =>
    rw [hq] at h
    obtain ⟨st', idx', fl', mk', evs'⟩ := r
    dsimp only at h
    cases h
    exact ⟨rfl, rfl, rfl⟩

theorem mpWrite_num {M c : Int} (hcM : c ≤ M) {s : MPState}
    (hm : s.maxSize = .num (M : ℚ)) (hc : s.currentSize = c) {data : Bytes}
    {s' : MPState} {evs : List MPEvent} {l : Nat}
    (h : mpWrite s data = .ok (s', evs, l)) :
    (l : Int) = min (c + data.length) M - c ∧ s'.maxSize = .num (M : ℚ) ∧
      s'.currentSize = min (c + data.length) M := by
  unfold mpWrite at h
  cases hi : mpInternalWrite s data
      (truncatedLen s.maxSize s.currentSize data.length).toNat with
  | error e =>
    simp only [hi] at h
    exact Except.noConfusion h
  | ok r =>
    obtain ⟨s'', evs'', l''⟩ := r
    simp only [hi, Except.ok.injEq, Prod.mk.injEq] at h
    obtain ⟨hl, hmax, hcur⟩ := mpInternalWrite_ok hi
    obtain ⟨hs', hevs, hlret⟩ := h
    rw [hm, hc, truncatedLen_num] at hl
    have harith : (if c + (data.length : Int) > M then M - c else (data.length : Int)) =
        min (c + data.length) M - c := by split <;> omega
    rw [harith] at hl
    subst hs'
    subst hlret
    refine ⟨by omega, by simp [hmax, hm], ?_⟩
    simp only [MPState.currentSize] at hcur ⊢
    omega

theorem mpRun_num (M : Int) :
    ∀ (chunks : List Bytes) (s : MPState) (s' : MPState) (evs : List MPEvent)
      (tot : Nat), s.maxSize = .num (M : ℚ) → s.currentSize ≤ M →
      mpRun s chunks = .ok (s', evs, tot) →
      (tot : Int) = min (s.currentSize + totalLen chunks) M - s.currentSize := by
  intro chunks
  induction chunks with
  | nil =>
    intro s s' evs tot hm hc h
    cases h
    simp only [totalLen, List.map_nil, List.sum_nil]
    omega
  | cons ch cs ih =>
    intro s s' evs tot hm hc h
    unfold mpRun at h
    obtain ⟨⟨s1, evs1, l1⟩, hw, h2⟩ := exceptBind_ok h
    obtain ⟨⟨s2, evs2, tot2⟩, hr, h3⟩ := exceptBind_ok h2
    cases h3
    obtain ⟨hl1, hm1, hc1⟩ := mpWrite_num hc hm rfl hw
    have hle1 : s1.currentSize ≤ M := by rw [hc1]; omega
    have hih := ih s1 _ _ _ hm1 hle1 hr
    rw [totalLen_cons, hc1] at *
    push_cast
    push_cast at hih hl1
    omega

/-! ## Constructor validation (max_size check shared by the three parsers) -/

/-- A Python max_size argument: a finite real number, float inf, or a value
that is not a Number. -/
inductive PyMaxArg where
  | num (q : ℚ)
  | inf
  | notNum
deriving DecidableEq, Repr

/-- isinstance(max_size, Number). -/
def PyMaxArg.isNumber : PyMaxArg → Bool
  | .notNum => false
  | _ => true

/-- max_size < 1; by short-circuit it is only evaluated on Numbers. -/
def PyMaxArg.ltOne : PyMaxArg → Bool
  | .num q => decide (q < 1)
  | _ => false

/-- The value stored into self.max_size when the check passes. -/
def PyMaxArg.toMaxSize : PyMaxArg → MaxSize
  | .num q => .num q
  | _ => .inf

/-- OctetStreamParser.__init__: raise ValueError if max_size is not a Number
or is < 1, else produce the fresh parser. -/
def octetInit (m : PyMaxArg) : Except Unit OctetState :=
  if !m.isNumber || m.ltOne then .error () else .ok (octetFresh m.toMaxSize)

/-- QuerystringParser.__init__: the same validation, then the fresh state. -/
def qsInit (strict : Bool) (m : PyMaxArg) : Except Unit QSState :=
  if !m.isNumber || m.ltOne then .error () else .ok (qsFresh strict m.toMaxSize)

/-- MultipartParser.__init__: the same validation, then the fresh state with
the stored pattern CRLF--token. -/
def mpInit (token : Bytes) (m : PyMaxArg) : Except Unit MPState :=
  if !m.isNumber || m.ltOne then .error () else .ok (mpFresh token m.toMaxSize)

/-! ## parse_options_header and the email parameter pipeline

parse_options_header delegates to email.message.Message.get_params, which
runs the header through email.message._parseparam, a name/value split, and
email.utils.decode_params / decode_rfc2231 / quote / unquote, with
urllib.parse.unquote(encoding="latin-1") for percent-decoding.  The
following definitions translate those stdlib helpers at byte level (str
and latin-1 bytes are in 1-1 correspondence on this path). -/

/-- Python str whitespace within latin-1: \t \n \v \f \r, the four
separator controls 28-31, space, NEL (133) and NBSP (160). -/
def isPySpace (c : Nat) : Bool :=
  (9 ≤ c && c ≤ 13) || (28 ≤ c && c ≤ 32) || c == 133 || c == 160

/-- str.strip(): drop leading and trailing whitespace. -/
def stripB (s : Bytes) : Bytes :=
  ((s.dropWhile isPySpace).reverse.dropWhile isPySpace).reverse

/-- str.lower() on a latin-1 code point: A-Z and À-Þ (except ×) gain 32. -/
def pyLowerByte (c : Nat) : Nat :=
  if 65 ≤ c ∧ c ≤ 90 then c + 32
  else if 192 ≤ c ∧ c ≤ 222 ∧ c ≠ 215 then c + 32
  else c

def lowerBytes (s : Bytes) : Bytes := s.map pyLowerByte

/-- str.count(sub, 0, stop) for a single byte. -/
def countByteTo (b : Nat) (s : Bytes) (stop : Nat) : Nat :=
  ((s.take stop).filter (fun c => c == b)).length

/-- str.count for a two-byte pattern (non-overlapping, left to right). -/
def countPairB (a b : Nat) : Bytes → Nat
  | [] => 0
  | [_] => 0
  | x :: y :: rest =>
    if x = a ∧ y = b then 1 + countPairB a b rest
    else countPairB a b (y :: rest)

/-- str.count(sub, 0, stop) for the two-byte pattern. -/
def countPairTo (a b : Nat) (s : Bytes) (stop : Nat) : Nat :=
  countPairB a b (s.take stop)

/-- The inner while of email.message._parseparam: advance end to the next
semicolon while the quote parity up to end is odd.  end is an Option
(none = Python -1); the fuel bounds the number of advances. -/
def parseparamEnd : Nat → Bytes → Option Nat → Option Nat
  | 0, _, e => e
  | fuel + 1, s1, e =>
    match e with
    | none => none
    | some p =>
      if 0 < p ∧ ((countByteTo 34 s1 p : Int) - countPairTo 92 34 s1 p) % 2 = 1 then
        parseparamEnd fuel s1 (byteFindFrom s1 59 (p + 1))
      else some p

/-- The body of email.message._parseparam after the initial ';' prepend:
one fuel unit per outer while iteration. -/
def parseparamAux : Nat → Bytes → List Bytes
  | 0, _ => []
  | fuel + 1, s =>
    if s.head? = some 59 then
      let s1 := s.drop 1
      let e1 := parseparamEnd (s1.length + 1) s1 (byteFindFrom s1 59 0)
      let endN := match e1 with | none => s1.length | some p => p
      let f := slice s1 0 endN
      let f2 :=
        if 61 ∈ f then
          match byteFindFrom f 61 0 with
          | some i =>
            stripB (lowerBytes (slice f 0 i)) ++ 61 :: stripB (slice f (i + 1) f.length)
          | none => f
        else f
      stripB f2 :: parseparamAux fuel (s1.drop endN)
    else []

/-- email.message._parseparam: prepend ';' and run the splitting loop. -/
def parseparam (s : Bytes) : List Bytes := parseparamAux (s.length + 2) (59 :: s)

/-- The per-parameter p.split('=', 1) with strips of
Message._get_params_preserve (bare attributes get an empty value). -/
def paramSplit (p : Bytes) : Bytes × Bytes :=
  match byteFindFrom p 61 0 with
  | some i => (stripB (slice p 0 i), stripB (slice p (i + 1) p.length))
  | none => (stripB p, [])

/-- \w under re.ASCII. -/
def isWordByte (c : Nat) : Bool :=
  (48 ≤ c && c ≤ 57) || (65 ≤ c && c ≤ 90) || (97 ≤ c && c ≤ 122) || c == 95

def isDigitByte (c : Nat) : Bool := 48 ≤ c && c ≤ 57

def digitsToNat (ds : Bytes) : Nat := ds.foldl (fun acc d => 10 * acc + (d - 48)) 0

/-- email.utils.rfc2231_continuation:
^(?P<name>\w+)\*((?P<num>[0-9]+)\*?)?$ -- returns the name group and the
optional section number on a match. -/
def rfc2231Match (name : Bytes) : Option (Bytes × Option Nat) :=
  let w := name.takeWhile isWordByte
  let rest := name.drop w.length
  if w = [] then none
  else
    match rest with
    | 42 :: rest2 =>
      if rest2 = [] then some (w, none)
      else
        let ds := rest2.takeWhile isDigitByte
        let rest3 := rest2.drop ds.length
        if ds = [] then none
        else if rest3 = [] ∨ rest3 = [42] then some (w, some (digitsToNat ds))
        else none
    | _ => none

/-- str.replace(two-byte pattern, one byte), non-overlapping left to
right. -/
def replacePair (a b c : Nat) : Bytes → Bytes
  | [] => []
  | [x] => [x]
  | x :: y :: rest =>
    if x = a ∧ y = b then c :: replacePair a b c rest
    else x :: replacePair a b c (y :: rest)

/-- email.utils.unquote: strip one layer of double quotes (undoing the
quoted-pair escapes) or angle brackets. -/
def emailUnquote (s : Bytes) : Bytes :=
  if 1 < s.length then
    if s.head? = some 34 ∧ s.getLast? = some 34 then
      replacePair 92 34 34 (replacePair 92 92 92 ((s.drop 1).dropLast))
    else if s.head? = some 60 ∧ s.getLast? = some 62 then (s.drop 1).dropLast
    else s
  else s

/-- Map each byte to a block and concatenate. -/
def escMap (f : Nat → Bytes) : Bytes → Bytes
  | [] => []
  | c :: rest => f c ++ escMap f rest

/-- email.utils.quote: backslash and double quote become quoted pairs. -/
def quoteBS (s : Bytes) : Bytes :=
  escMap (fun c => if c = 92 then [92, 92] else if c = 34 then [92, 34] else [c]) s

/-- A hex digit's value. -/
def hexVal (c : Nat) : Option Nat :=
  if 48 ≤ c ∧ c ≤ 57 then some (c - 48)
  else if 97 ≤ c ∧ c ≤ 102 then some (c - 87)
  else if 65 ≤ c ∧ c ≤ 70 then some (c - 55)
  else none

/-- urllib.parse.unquote(s, encoding="latin-1") at byte level: a '%'
followed by two hex digits becomes that byte, otherwise bytes pass
through. -/
def pctDecode : Bytes → Bytes
  | [] => []
  | 37 :: h1 :: h2 :: rest2 =>
    match hexVal h1, hexVal h2 with
    | some a, some b => (16 * a + b) :: pctDecode rest2
    | _, _ => 37 :: pctDecode (h1 :: h2 :: rest2)
  | 37 :: rest => 37 :: pctDecode rest
  | c :: rest => c :: pctDecode rest

/-- email.utils.decode_rfc2231: split at the first two ticks; fewer than
two ticks leaves the string whole with no charset or language. -/
def decodeRfc2231 (s : Bytes) : Option Bytes × Option Bytes × Bytes :=
  match byteFindFrom s 39 0 with
  | none => (none, none, s)
  | some i =>
    match byteFindFrom s 39 (i + 1) with
    | none => (none, none, s)
    | some j => (some (slice s 0 i), some (slice s (i + 1) j), slice s (j + 1) s.length)

/-- A parameter value as Message.get_params returns it: a plain string or
an RFC 2231 (charset, language, value) triple. -/
inductive PVal where
  | plain (v : Bytes)
  | ext (cs ln : Option Bytes) (v : Bytes)
deriving DecidableEq, Repr

/-- One collected continuation: (number, value, encoded flag). -/
abbrev Cont := Option Nat × Bytes × Bool

def bytesLt : Bytes → Bytes → Bool
  | [], [] => false
  | [], _ :: _ => true
  | _ :: _, [] => false
  | a :: as, b :: bs => if a < b then true else if a = b then bytesLt as bs else false

def optNatLt : Option Nat → Option Nat → Bool
  | none, none => false
  | none, some _ => true
  | some _, none => false
  | some a, some b => a < b

/-- Tuple comparison for continuations.sort() (heterogeneous number
comparisons, a TypeError in Python, order none first). -/
def contLt (x y : Cont) : Bool :=
  optNatLt x.1 y.1 ||
    (x.1 == y.1 && (bytesLt x.2.1 y.2.1 || (x.2.1 == y.2.1 && (!x.2.2 && y.2.2))))

def insertCont (c : Cont) : List Cont → List Cont
  | [] => [c]
  | d :: ds => if contLt c d then c :: d :: ds else d :: insertCont c ds

def sortConts (l : List Cont) : List Cont := l.foldl (fun acc c => insertCont c acc) []

/-- rfc2231_params.setdefault(name, []).append(c): dict insertion order. -/
def addGroup (gs : List (Bytes × List Cont)) (name : Bytes) (c : Cont) :
    List (Bytes × List Cont) :=
  match gs with
  | [] => [(name, [c])]
  | g :: rest => if g.1 = name then (g.1, g.2 ++ [c]) :: rest else g :: addGroup rest name c

/-- The per-group aggregation at the end of email.utils.decode_params:
sort the continuations, percent-decode the encoded segments, re-quote the
join, and split off charset and language when any segment was extended. -/
def decodeGroup (g : Bytes × List Cont) : Bytes × PVal :=
  let conts := sortConts g.2
  let decoded := (conts.map (fun c => if c.2.2 then pctDecode c.2.1 else c.2.1))
  let extended := conts.any (fun c => c.2.2)
  let value := quoteBS (decoded.flatten)
  if extended then
    match decodeRfc2231 value with
    | (cs, ln, v) => (g.1, PVal.ext cs ln (34 :: v ++ [34]))
  else (g.1, PVal.plain (34 :: value ++ [34]))

/-- email.utils.decode_params. -/
def decodeParams (params : List (Bytes × Bytes)) : List (Bytes × PVal) :=
  match params with
  | [] => []
  | p0 :: rest =>
    let acc := rest.foldl
      (fun (acc : List (Bytes × PVal) × List (Bytes × List Cont)) nv =>
        let name := nv.1
        let value := emailUnquote nv.2
        match rfc2231Match name with
        | some (name', num) =>
          (acc.1, addGroup acc.2 name' (num, value, name.getLast? == some 42))
        | none => (acc.1 ++ [(name, PVal.plain (34 :: quoteBS value ++ [34]))], acc.2))
      ([(p0.1, PVal.plain p0.2)], [])
    acc.1 ++ acc.2.map decodeGroup

/-- Message._unquotevalue under get_params(unquote=True). -/
def unquoteValue : PVal → PVal
  | .plain v => .plain (emailUnquote v)
  | .ext cs ln v => .ext cs ln (emailUnquote v)

/-- Message.get_params() for a stored content-type header value. -/
def getParams (value : Bytes) : List (Bytes × PVal) :=
  (decodeParams ((parseparam value).map paramSplit)).map (fun p => (p.1, unquoteValue p.2))

/-- value[-1] for a get_params result: the tuple keeps only its last
component. -/
def pvalBytes : PVal → Bytes
  | .plain v => v
  | .ext _ _ v => v

/-- b"filename". -/
def fnameKey : Bytes := [102, 105, 108, 101, 110, 97, 109, 101]

/-- value.split("\\")[-1]: the suffix after the last backslash. -/
def bsLast (v : Bytes) : Bytes := (v.reverse.takeWhile (fun c => !(c == 92))).reverse

/-- The IE6 path fixup of parse_options_header: a value whose second and
third bytes are ":\\" or that starts with two backslashes is cut down to
its final backslash-separated component. -/
def ie6Adjust (v : Bytes) : Bytes :=
  if slice v 1 3 = [58, 92] ∨ slice v 0 2 = [92, 92] then bsLast v else v

/-- parse_options_header at byte level (str values correspond to their
latin-1 bytes).  The options dict is kept as the association list in
insertion order. -/
def parse_options_header (value : Bytes) : Bytes × List (Bytes × Bytes) :=
  if value = [] then ([], [])
  else if ¬ 59 ∈ value then (stripB (lowerBytes value), [])
  else
    match getParams value with
    | [] => ([], [])
    | first :: rest =>
      (first.1, rest.map (fun p =>
        let v := pvalBytes p.2
        (p.1, if p.1 = fnameKey then ie6Adjust v else v)))

/-- Lookup in the options dict: the last binding of a key wins, as in a
Python dict built by repeated assignment. -/
def optionsGet (opts : List (Bytes × Bytes)) (k : Bytes) : Option Bytes :=
  (opts.reverse.find? (fun p => p.1 == k)).map (fun p => p.2)

/-! ## Claim C4 (Field immutability after finalize) -/

/-- C4: the spec and the Field docstring state that after finalize no further
data writes are accepted, but Field.write delegates to on_data which appends
and invalidates the cache: writing [121] after finalize changes the value
from [120] to [120, 121].  This evaluates the embedded code at the failing
input. -/
theorem claim_C4_code_bug :
    fieldValue (fieldFinalize (fieldWrite (fieldInit (some [110])) [120]).1) = some [120] ∧
    fieldValue (fieldWrite (fieldFinalize
        (fieldWrite (fieldInit (some [110])) [120]).1) [121]).1 = some [120, 121] := by
  decide

/-! ## Claim C5 (Base64Decoder.write return value) -/

/-- C5 counterexample: with one cached byte (from writing single byte "Z"),
a successful write of the three-byte buffer "m9v" returns 4, not 3: the
claim that write returns len(buf) is false when the cache is non-empty. -/
theorem claim_C5_counterexample :
    base64Write ⟨[90]⟩ [109, 57, 118] = .ok (⟨[]⟩, [102, 111, 111], 4) ∧
    ([109, 57, 118] : Bytes).length = 3 ∧ (4 : Nat) ≠ 3 := by
  decide

/-- C5 amended: a successful Base64Decoder.write(buf) returns
len(buf) + len(cache at entry) - the length of the cache-extended buffer. -/
theorem claim_C5 (st : Base64DecoderState) (data0 : Bytes)
    (r : Base64DecoderState × Bytes × Nat) (h : base64Write st data0 = .ok r) :
    r.2.2 = st.cache.length + data0.length := by
  unfold base64Write at h
  by_cases hc : 0 < st.cache.length
  · rw [if_pos hc] at h
    dsimp only at h
    split at h
    · split at h
      · cases h
      · cases h
        simp
    · cases h
      simp
  · rw [if_neg hc] at h
    have hnil : st.cache.length = 0 := by omega
    dsimp only at h
    split at h
    · split at h
      · cases h
      · cases h
        simp [hnil]
    · cases h
      simp [hnil]

/-- C5 witness: the amended statement evaluated at the concrete run used in
the counterexample. -/
theorem claim_C5_witness :
    (4 : Nat) = (⟨[90]⟩ : Base64DecoderState).cache.length + ([109, 57, 118] : Bytes).length :=
  claim_C5 ⟨[90]⟩ [109, 57, 118] (⟨[]⟩, [102, 111, 111], 4) (by decide)

/-! ## Claim C8 (Base64Decoder.finalize) -/

/-- C8: finalize raises DecodeError iff the cache is non-empty; with an empty
cache it does not raise and forwards finalize to the sink exactly when the
sink supports it. -/
theorem claim_C8 (st : Base64DecoderState) (hf : Bool) :
    (base64Finalize st hf = .error () ↔ st.cache ≠ []) ∧
    (st.cache = [] → base64Finalize st hf = .ok hf) := by
  by_cases hc : st.cache = []
  · simp [base64Finalize, hc]
  · have hlen : 0 < st.cache.length := List.length_pos.mpr hc
    simp [base64Finalize, hlen, hc]

/-- C8 witness: the theorem applied at an empty-cache decoder over a sink
that supports finalize. -/
theorem claim_C8_witness :
    (base64Finalize ⟨[]⟩ true = .error () ↔ (⟨[]⟩ : Base64DecoderState).cache ≠ []) ∧
    ((⟨[]⟩ : Base64DecoderState).cache = [] → base64Finalize ⟨[]⟩ true = .ok true) :=
  claim_C8 ⟨[]⟩ true

/-! ## Claim C7 (octet-stream start event) -/

/-- The size-accounting invariant of OctetStreamParser: with a finite
max_size the current size never exceeds it (truncation caps each write). -/
def OctetState.sizeOk (s : OctetState) : Prop :=
  match s.maxSize with
  | .inf => True
  | .num q => (s.currentSize : ℚ) ≤ q

theorem octetFresh_sizeOk (m : MaxSize) (hm : m.valid) : (octetFresh m).sizeOk := by
  cases m with
  | inf => trivial
  | num q =>
    have h1 : (1 : ℚ) ≤ q := hm
    show ((0 : Int) : ℚ) ≤ q
    push_cast
    linarith

theorem octetWrite_sizeOk (s : OctetState) (data : Bytes) (h : s.sizeOk) :
    (octetWrite s data).1.sizeOk := by
  obtain ⟨st, m, c⟩ := s
  cases m with
  | inf => trivial
  | num q =>
    have h' : ((c : Int) : ℚ) ≤ q := h
    show ((c + truncatedLen (.num q) c data.length : Int) : ℚ) ≤ q
    simp only [truncatedLen]
    split
    · rename_i hlt
      have h0 : (0 : ℚ) ≤ q - (c : ℚ) := by linarith
      have hp : pyInt (q - (c : ℚ)) = ⌊q - (c : ℚ)⌋ := if_pos h0
      rw [hp]
      push_cast
      have hfl : ((⌊q - (c : ℚ)⌋ : ℚ)) ≤ q - (c : ℚ) := Int.floor_le _
      linarith
    · rename_i hge
      push_cast
      linarith

theorem octetRunState_sizeOk :
    ∀ (ds : List Bytes) (s : OctetState), s.sizeOk → (octetRunState s ds).sizeOk := by
  intro ds
  induction ds with
  | nil => intro s h; exact h
  | cons d rest ih =>
    intro s h
    exact ih (octetWrite s d).1 (octetWrite_sizeOk s d h)

theorem octetRunState_started :
    ∀ (ds : List Bytes) (s : OctetState), s.started = true →
      (octetRunState s ds).started = true := by
  intro ds
  induction ds with
  | nil => intro s h; exact h
  | cons d rest ih =>
    intro s _
    exact ih (octetWrite s d).1 (octetWrite_started_state s d)

/-- An empty write to an already-started parser within its size budget
emits nothing, changes nothing and returns 0. -/
theorem octetWrite_empty (s : OctetState) (hst : s.started = true) (h : s.sizeOk) :
    octetWrite s [] = (s, [], 0) := by
  obtain ⟨st, m, c⟩ := s
  cases hst
  cases m with
  | inf =>
    unfold octetWrite
    simp [truncatedLen]
  | num q =>
    have h' : ((c : Int) : ℚ) ≤ q := h
    have htr : truncatedLen (.num q) c (List.length ([] : Bytes)) = 0 := by
      simp only [truncatedLen, List.length_nil]
      rw [if_neg (by push_cast; linarith)]
      rfl
    unfold octetWrite
    dsimp only
    rw [htr]
    simp

/-- C7 counterexample: the first write fires start even when its buffer is
empty - the source guards only on the _started flag, not on emptiness, so
an empty first write produces the event list [start], not []. -/
theorem claim_C7_counterexample :
    (octetWrite (octetFresh .inf) []).2.1 = [OctetEvent.start] ∧
    (octetWrite (octetFresh .inf) []).2.1 ≠ [] := by
  constructor
  · rfl
  · intro h
    cases h

/-- C7 amended: over any write sequence to a fresh OctetStreamParser (valid
max_size), start fires exactly once, namely on the first write call whether
or not its buffer is empty; an empty first write fires start and nothing
else (no data event); and an empty write after the first (preceded by any
writes) fires no events at all, leaving the state unchanged and
returning 0. -/
theorem claim_C7 (m : MaxSize) (hm : m.valid) (c : Bytes) (cs : List Bytes) :
    (octetRunEvents (octetFresh m) (c :: cs)).head? = some OctetEvent.start ∧
    countStart (octetRunEvents (octetFresh m) (c :: cs)) = 1 ∧
    (c = [] → (octetWrite (octetFresh m) c).2.1 = [OctetEvent.start]) ∧
    (∀ ds : List Bytes, octetWrite (octetRunState (octetFresh m) (c :: ds)) [] =
      (octetRunState (octetFresh m) (c :: ds), [], 0)) := by
  have hw : (octetWrite (octetFresh m) c).2.1 =
      OctetEvent.start :: (if (0 : Int) = truncatedLen m 0 c.length then []
        else [OctetEvent.data (slice c 0 (truncatedLen m 0 c.length).toNat)]) := rfl
  refine ⟨?_, ?_, ?_, ?_⟩
  · unfold octetRunEvents
    dsimp only
    rw [hw]
    rfl
  · unfold octetRunEvents
    rw [countStart_append, hw]
    have hrest := octetRunEvents_no_start cs (octetWrite (octetFresh m) c).1
      (octetWrite_started_state _ _)
    rw [hrest]
    split <;> simp [countStart]
  · intro hce
    subst hce
    rw [hw]
    simp only [List.length_nil]
    rw [truncatedLen_valid_zero m hm]
    rfl
  · intro ds
    have hstarted : (octetRunState (octetFresh m) (c :: ds)).started = true := by
      show (octetRunState (octetWrite (octetFresh m) c).1 ds).started = true
      exact octetRunState_started ds _ (octetWrite_started_state _ _)
    have hok : (octetRunState (octetFresh m) (c :: ds)).sizeOk :=
      octetRunState_sizeOk (c :: ds) _ (octetFresh_sizeOk m hm)
    exact octetWrite_empty _ hstarted hok

/-! ## Claim C3 (trailing bare querystring field at finalize) -/

theorem findByteAux_none {b : Nat} :
    ∀ {l : Bytes} (idx : Nat), (∀ x ∈ l, x ≠ b) → findByteAux b l idx = none := by
  intro l
  induction l with
  | nil => intro idx _; rfl
  | cons c rest ih =>
    intro idx h
    have hc : c ≠ b := h c (by simp)
    simp only [findByteAux, if_neg hc]
    exact ih (idx + 1) (fun x hx => h x (by simp [hx]))

theorem findByteAux_append {b : Nat} :
    ∀ {l : Bytes} (r : Bytes) (idx : Nat), (∀ x ∈ l, x ≠ b) →
      findByteAux b (l ++ b :: r) idx = some (idx + l.length) := by
  intro l
  induction l with
  | nil => intro r idx _; simp [findByteAux]
  | cons c rest ih =>
    intro r idx h
    have hc : c ≠ b := h c (by simp)
    simp only [List.cons_append, findByteAux, if_neg hc, List.append_eq]
    rw [ih r (idx + 1) (fun x hx => h x (by simp [hx]))]
    simp only [List.length_cons, Option.some.injEq]
    omega

theorem getD_zero_mem {l : Bytes} (h : l ≠ []) : l.getD 0 0 ∈ l := by
  cases l with
  | nil => exact absurd rfl h
  | cons c rest => simp

theorem getD_append_self (l : Bytes) (b : Nat) (r : Bytes) :
    (l ++ b :: r).getD l.length 0 = b := by
  induction l with
  | nil => rfl
  | cons c rest ih => simpa using ih

theorem isSepByte_eq_false {c : Nat} (h38 : c ≠ AMPERSAND) (h59 : c ≠ SEMICOLON) :
    isSepByte c = false := by
  simp only [isSepByte, Bool.or_eq_false_iff]
  constructor
  · exact beq_eq_false_iff_ne.mpr h38
  · exact beq_eq_false_iff_ne.mpr h59

/-- Well-formed field names for the C3 family: no separators and no
equals sign among the bytes. -/
abbrev qsNoSepNoEq (name : Bytes) : Prop :=
  ∀ b ∈ name, b ≠ AMPERSAND ∧ b ≠ SEMICOLON ∧ b ≠ EQSIGN

theorem qsLoop_bare_name (name : Bytes) (hne : name ≠ []) (hok : qsNoSepNoEq name) :
    qsLoop false name name.length 0 .BEFORE_FIELD false =
      .ok (.FIELD_NAME, false, [.fieldStart, .fieldName name]) := by
  have h0 : 0 < name.length := List.length_pos.mpr hne
  have hb0 : isSepByte (name.getD 0 0) = false := by
    have hm := getD_zero_mem hne
    obtain ⟨h38, h59, _⟩ := hok _ hm
    exact isSepByte_eq_false h38 h59
  have hfa38 : byteFindFrom name AMPERSAND 0 = none := by
    unfold byteFindFrom
    rw [List.drop_zero]
    exact findByteAux_none 0 (fun x hx => (hok x hx).1)
  have hfa59 : byteFindFrom name SEMICOLON 0 = none := by
    unfold byteFindFrom
    rw [List.drop_zero]
    exact findByteAux_none 0 (fun x hx => (hok x hx).2.1)
  have hfa61 : byteFindFrom name EQSIGN 0 = none := by
    unfold byteFindFrom
    rw [List.drop_zero]
    exact findByteAux_none 0 (fun x hx => (hok x hx).2.2)
  have hsp : qsSepPos name 0 = none := by
    unfold qsSepPos
    rw [hfa38]
    exact hfa59
  have heqp : qsEqPos name 0 (qsSepPos name 0) = none := by
    rw [hsp]
    exact hfa61
  rw [qsLoop.eq_def]
  rw [dif_pos h0]
  dsimp only
  rw [dif_neg (fun hc => by rw [hb0] at hc; cases hc)]
  rw [qsLoop.eq_def]
  rw [dif_pos h0]
  dsimp only
  split
  · exfalso
    simp_all
  · rw [if_neg (by simp)]
    split
    · exfalso
      simp_all
    · dsimp only [Bind.bind, Except.bind, Pure.pure, Except.pure]
      unfold dataEvent
      rw [if_neg (by omega)]
      unfold slice
      rw [List.drop_zero, Nat.sub_zero, List.take_length]

theorem qsWrite_bare_name (name : Bytes) (hne : name ≠ []) (hok : qsNoSepNoEq name) :
    qsWrite (qsFresh false .inf) name =
      .ok (⟨.FIELD_NAME, false, false, .inf, (name.length : Int)⟩,
        [.fieldStart, .fieldName name], name.length) := by
  unfold qsWrite qsInternalWrite
  dsimp only [qsFresh, truncatedLen]
  rw [Int.toNat_natCast]
  rw [qsLoop_bare_name name hne hok]
  dsimp only
  norm_num

theorem qsLoop_bare_name_sep (name : Bytes) (hne : name ≠ []) (hok : qsNoSepNoEq name) :
    qsLoop false (name ++ [AMPERSAND]) (name.length + 1) 0 .BEFORE_FIELD false =
      .ok (.BEFORE_FIELD, true, [.fieldStart, .fieldName name, .fieldEnd]) := by
  have h0 : 0 < name.length := List.length_pos.mpr hne
  have hb0 : isSepByte ((name ++ [AMPERSAND]).getD 0 0) = false := by
    rw [List.getD_append _ _ _ _ h0]
    have hm := getD_zero_mem hne
    obtain ⟨h38, h59, _⟩ := hok _ hm
    exact isSepByte_eq_false h38 h59
  have hfb38 : byteFindFrom (name ++ [AMPERSAND]) AMPERSAND 0 = some name.length := by
    unfold byteFindFrom
    rw [List.drop_zero]
    have := findByteAux_append (b := AMPERSAND) (l := name) [] 0 (fun x hx => (hok x hx).1)
    simpa using this
  have hspb : qsSepPos (name ++ [AMPERSAND]) 0 = some name.length := by
    unfold qsSepPos
    rw [hfb38]
  have heqb : qsEqPos (name ++ [AMPERSAND]) 0 (qsSepPos (name ++ [AMPERSAND]) 0) = none := by
    rw [hspb]
    show byteFindIn (name ++ [AMPERSAND]) EQSIGN 0 name.length = none
    unfold byteFindIn
    rw [List.take_left, List.drop_zero]
    exact findByteAux_none 0 (fun x hx => (hok x hx).2.2)
  have hgn : (name ++ [AMPERSAND]).getD name.length 0 = AMPERSAND :=
    getD_append_self name AMPERSAND []
  have hsep38 : isSepByte ((name ++ [AMPERSAND]).getD name.length 0) = true := by
    rw [hgn]
    rfl
  rw [qsLoop.eq_def]
  rw [dif_pos (by omega : 0 < name.length + 1)]
  dsimp only
  rw [dif_neg (fun hc => by rw [hb0] at hc; cases hc)]
  rw [qsLoop.eq_def]
  rw [dif_pos (by omega : 0 < name.length + 1)]
  dsimp only
  split
  · exfalso
    simp_all
  · rw [if_neg (by simp)]
    split
    · rename_i sp hsp2
      rw [hspb] at hsp2
      cases hsp2
      rw [qsLoop.eq_def]
      rw [dif_pos (by omega : name.length < name.length + 1)]
      dsimp only
      rw [dif_pos hsep38]
      rw [if_neg (by simp)]
      rw [qsLoop.eq_def]
      rw [dif_neg (by omega : ¬(name.length + 1 < name.length + 1))]
      dsimp only [Bind.bind, Except.bind, Pure.pure, Except.pure]
      unfold dataEvent
      rw [if_neg (by omega)]
      unfold slice
      rw [List.drop_zero, Nat.sub_zero, List.take_left]
      rfl
    · exfalso
      simp_all

theorem qsWrite_bare_name_sep (name : Bytes) (hne : name ≠ []) (hok : qsNoSepNoEq name) :
    qsWrite (qsFresh false .inf) (name ++ [AMPERSAND]) =
      .ok (⟨.BEFORE_FIELD, true, false, .inf, ((name.length : Int) + 1)⟩,
        [.fieldStart, .fieldName name, .fieldEnd], name.length + 1) := by
  unfold qsWrite qsInternalWrite
  dsimp only [qsFresh, truncatedLen]
  rw [Int.toNat_natCast]
  rw [show (name ++ [AMPERSAND]).length = name.length + 1 by simp]
  rw [qsLoop_bare_name_sep name hne hok]
  dsimp only
  simp only [Except.ok.injEq, Prod.mk.injEq, QSState.mk.injEq]
  norm_num

/-- C3 counterexample: feeding the single chunk "blank" (a field name with
no equals sign, no trailing separator) and then finalize: finalize emits
only the end event (the machine is in FIELD_NAME, not FIELD_DATA), so the
coordinator never receives field_end and reports no field at all - not a
field with a null value as claimed. -/
theorem claim_C3_counterexample :
    qsWrite (qsFresh false .inf) [98, 108, 97, 110, 107] =
      .ok (⟨.FIELD_NAME, false, false, .inf, 5⟩,
        [.fieldStart, .fieldName [98, 108, 97, 110, 107]], 5) ∧
    qsFinalizeEvents ⟨.FIELD_NAME, false, false, .inf, 5⟩ = [.endEv] ∧
    (qsCoordRun [.fieldStart, .fieldName [98, 108, 97, 110, 107], .endEv]).fields = [] := by
  refine ⟨?_, rfl, rfl⟩
  have h := qsWrite_bare_name [98, 108, 97, 110, 107] (by decide) (by decide)
  simpa using h

/-- C3 amended: a bare field name that terminates at end-of-input is dropped:
the write leaves the machine in FIELD_NAME, finalize emits only end, and the
coordinator reports nothing.  A bare name is reported as a null-valued field
(via set_none) only when a separator terminates it inside the stream. -/
theorem claim_C3 (name : Bytes) (hne : name ≠ []) (hok : qsNoSepNoEq name) :
    (qsWrite (qsFresh false .inf) name =
      .ok (⟨.FIELD_NAME, false, false, .inf, (name.length : Int)⟩,
        [.fieldStart, .fieldName name], name.length)) ∧
    qsFinalizeEvents ⟨.FIELD_NAME, false, false, .inf, (name.length : Int)⟩ = [.endEv] ∧
    (qsCoordRun [.fieldStart, .fieldName name, .endEv]).fields = [] ∧
    (qsWrite (qsFresh false .inf) (name ++ [AMPERSAND]) =
      .ok (⟨.BEFORE_FIELD, true, false, .inf, ((name.length : Int) + 1)⟩,
        [.fieldStart, .fieldName name, .fieldEnd], name.length + 1)) ∧
    (qsCoordRun [.fieldStart, .fieldName name, .fieldEnd, .endEv]).fields =
      [fieldFinalize (fieldSetNone (fieldInit (some name)))] ∧
    fieldValue (fieldFinalize (fieldSetNone (fieldInit (some name)))) = none := by
  refine ⟨qsWrite_bare_name name hne hok, rfl, rfl,
    qsWrite_bare_name_sep name hne hok, ?_, rfl⟩
  simp [qsCoordRun, qsCoordStep]

/-- C3 witness: the amended statement at the one-byte name "x". -/
theorem claim_C3_witness :
    (qsWrite (qsFresh false .inf) [120] =
      .ok (⟨.FIELD_NAME, false, false, .inf, (([120] : Bytes).length : Int)⟩,
        [.fieldStart, .fieldName [120]], ([120] : Bytes).length)) ∧
    qsFinalizeEvents ⟨.FIELD_NAME, false, false, .inf, (([120] : Bytes).length : Int)⟩ =
      [.endEv] ∧
    (qsCoordRun [.fieldStart, .fieldName [120], .endEv]).fields = [] ∧
    (qsWrite (qsFresh false .inf) ([120] ++ [AMPERSAND]) =
      .ok (⟨.BEFORE_FIELD, true, false, .inf, ((([120] : Bytes).length : Int) + 1)⟩,
        [.fieldStart, .fieldName [120], .fieldEnd], ([120] : Bytes).length + 1)) ∧
    (qsCoordRun [.fieldStart, .fieldName [120], .fieldEnd, .endEv]).fields =
      [fieldFinalize (fieldSetNone (fieldInit (some [120])))] ∧
    fieldValue (fieldFinalize (fieldSetNone (fieldInit (some [120])))) = none :=
  claim_C3 [120] (by decide) (by decide)

/-- C7 witness: the amended statement at an infinite max_size with an empty
first chunk, including that the empty second write fires no events. -/
theorem claim_C7_witness :
    (octetRunEvents (octetFresh .inf) ([] :: [])).head? = some OctetEvent.start ∧
    countStart (octetRunEvents (octetFresh .inf) ([] :: [])) = 1 ∧
    (([] : Bytes) = [] → (octetWrite (octetFresh .inf) []).2.1 = [OctetEvent.start]) ∧
    octetWrite (octetRunState (octetFresh .inf) ([] :: [])) [] =
      (octetRunState (octetFresh .inf) ([] :: []), [], 0) :=
  ⟨(claim_C7 .inf True.intro [] []).1, (claim_C7 .inf True.intro [] []).2.1,
   (claim_C7 .inf True.intro [] []).2.2.1, (claim_C7 .inf True.intro [] []).2.2.2 []⟩

/-! ## Opening-boundary lemmas (START and START_BOUNDARY consumption) -/

theorem getD_append_add (l r : Bytes) (j : Nat) :
    (l ++ r).getD (l.length + j) 0 = r.getD j 0 := by
  induction l with
  | nil => simp
  | cons c t ih => simpa [Nat.succ_add] using ih

/-- In the START state a run of CR/LF bytes is skipped without any other
effect. -/
theorem mpLoop_start_skip (b : Bytes) (hb : 4 ≤ b.length) (ef : MPFlags)
    (data : Bytes) (length : Nat) (idx : Nat) (fl : MPFlags) (mk : MPMarks) :
    ∀ (n i : Nat), (∀ j, j < n → data.getD (i + j) 0 = CR ∨ data.getD (i + j) 0 = LF) →
      i + n ≤ length →
      mpLoop b hb ef data length i .START idx fl mk =
        mpLoop b hb ef data length (i + n) .START idx fl mk := by
  intro n
  induction n with
  | zero => intro i _ _; rfl
  | succ m ih =>
    intro i h hle
    have hi : i < length := by omega
    have h0 : data.getD i 0 = CR ∨ data.getD i 0 = LF := by
      have := h 0 (by omega)
      simpa using this
    conv_lhs => rw [mpLoop.eq_def]
    rw [dif_pos hi]
    dsimp only
    rw [if_pos h0]
    have hstep := ih (i + 1) (fun j hj => by
      have h2 := h (j + 1) (by omega)
      have e1 : i + (j + 1) = i + 1 + j := by omega
      rw [e1] at h2
      exact h2) (by omega)
    rw [hstep]
    have e3 : i + 1 + m = i + (m + 1) := by omega
    rw [e3]

/-- In the START_BOUNDARY state a stretch of bytes that agrees with the
stored pattern from offset index+2 on is consumed, advancing the match
index in lockstep, as long as it stops short of the final two positions. -/
theorem mpLoop_sb_consume (b : Bytes) (hb : 4 ≤ b.length) (ef : MPFlags)
    (data : Bytes) (length : Nat) (fl : MPFlags) (mk : MPMarks) :
    ∀ (k i index : Nat), index + k + 2 = b.length →
      (∀ j, j < k → data.getD (i + j) 0 = b.getD (index + 2 + j) 0) →
      i + k ≤ length →
      mpLoop b hb ef data length i .START_BOUNDARY index fl mk =
        mpLoop b hb ef data length (i + k) .START_BOUNDARY (index + k) fl mk := by
  intro k
  induction k with
  | zero => intro i index _ _ _; rfl
  | succ m ih =>
    intro i index hlen h hle
    have hi : i < length := by omega
    have h0 : data.getD i 0 = b.getD (index + 2) 0 := by
      have := h 0 (by omega)
      simpa using this
    conv_lhs => rw [mpLoop.eq_def]
    rw [dif_pos hi]
    dsimp only
    rw [if_neg (by omega : ¬ index = b.length - 2)]
    rw [if_neg (by omega : ¬ index = b.length - 2 + 1)]
    rw [if_neg (not_not_intro h0)]
    have hstep := ih (i + 1) (index + 1) (by omega) (fun j hj => by
      have h2 := h (j + 1) (by omega)
      have e1 : i + (j + 1) = i + 1 + j := by omega
      have e2 : index + 2 + (j + 1) = index + 1 + 2 + j := by omega
      rw [e1, e2] at h2
      exact h2) (by omega)
    rw [hstep]
    have e3 : i + 1 + m = i + (m + 1) := by omega
    have e4 : index + 1 + m = index + (m + 1) := by omega
    rw [e3, e4]

/-- A body that is a CR/LF run, the opening boundary and an immediate
terminator "--" drives the loop from START to END emitting exactly the end
event, for any entry flag word, flag word and marks table. -/
theorem mpLoop_open_close (token pre : Bytes)
    (hpre : ∀ b ∈ pre, b = CR ∨ b = LF) (ef fl : MPFlags) (mk : MPMarks) :
    mpLoop (mpPattern token) (mpPattern_four_le token) ef
      (pre ++ 45 :: 45 :: (token ++ [45, 45]))
      (pre ++ 45 :: 45 :: (token ++ [45, 45])).length 0 .START 0 fl mk =
      .ok (.END, token.length + 4, fl, mk, [.endEv]) := by
  have hlenbody : (pre ++ 45 :: 45 :: (token ++ [45, 45])).length =
      pre.length + (token.length + 4) := by
    simp
  have hskip := mpLoop_start_skip (mpPattern token) (mpPattern_four_le token) ef
    (pre ++ 45 :: 45 :: (token ++ [45, 45]))
    (pre ++ 45 :: 45 :: (token ++ [45, 45])).length 0 fl mk pre.length 0
    (fun j hj => by
      rw [Nat.zero_add]
      rw [List.getD_append _ _ _ _ hj]
      have hm : pre.getD j 0 ∈ pre := by
        rw [List.getD_eq_getElem _ _ hj]
        exact pre.getElem_mem _
      exact hpre _ hm)
    (by omega)
  rw [Nat.zero_add] at hskip
  rw [hskip]
  have h45 : (pre ++ 45 :: 45 :: (token ++ [45, 45])).getD pre.length 0 = 45 := by
    have := getD_append_add pre (45 :: 45 :: (token ++ [45, 45])) 0
    simpa using this
  conv_lhs => rw [mpLoop.eq_def]
  rw [dif_pos (by omega)]
  dsimp only
  rw [if_neg (by rw [h45]; decide)]
  have hcons := mpLoop_sb_consume (mpPattern token) (mpPattern_four_le token) ef
    (pre ++ 45 :: 45 :: (token ++ [45, 45]))
    (pre ++ 45 :: 45 :: (token ++ [45, 45])).length fl mk
    (token.length + 2) pre.length 0
    (by rw [mpPattern_length]; omega)
    (fun j hj => by
      rw [getD_append_add pre _ j]
      simp only [Nat.zero_add]
      rcases j with _ | _ | t
      · rfl
      · rfl
      · have ht : t < token.length := by omega
        have hlhs : (45 :: 45 :: (token ++ [45, 45])).getD (t + 2) 0 =
            (token ++ [45, 45]).getD t 0 := by
          simp [List.getD_cons_succ]
        rw [hlhs]
        have e : 2 + (t + 2) = 4 + t := by omega
        rw [e]
        have h4 := getD_append_add [13, 10, 45, 45] token t
        simp only [List.length_cons, List.length_nil] at h4
        have hpat : mpPattern token = [13, 10, 45, 45] ++ token := by
          simp [mpPattern, CR, LF, HYPHEN]
        rw [hpat, h4]
        rw [List.getD_append _ _ _ _ ht])
    (by omega)
  simp only [Nat.zero_add] at hcons
  rw [hcons]
  have h45b : (pre ++ 45 :: 45 :: (token ++ [45, 45])).getD
      (pre.length + (token.length + 2)) 0 = 45 := by
    rw [getD_append_add pre _ (token.length + 2)]
    have : (token ++ [45, 45]) = token ++ 45 :: [45] := rfl
    simp only [List.getD_cons_succ]
    exact getD_append_self token 45 [45]
  conv_lhs => rw [mpLoop.eq_def]
  rw [dif_pos (by omega)]
  dsimp only
  rw [if_pos (show token.length + 2 = (mpPattern token).length - 2 by
    rw [mpPattern_length]; omega)]
  rw [h45b]
  rw [if_pos (show (45 : Nat) = HYPHEN by decide)]
  have h45c : (pre ++ 45 :: 45 :: (token ++ [45, 45])).getD
      (pre.length + (token.length + 2) + 1) 0 = 45 := by
    have e : pre.length + (token.length + 2) + 1 = pre.length + (token.length + 3) := by
      omega
    rw [e, getD_append_add pre _ (token.length + 3)]
    simp only [List.getD_cons_succ]
    have e2 : token.length + 1 = token.length + 1 := rfl
    have h4 := getD_append_add token [45, 45] 1
    simpa using h4
  conv_lhs => rw [mpLoop.eq_def]
  rw [dif_pos (by omega)]
  dsimp only
  rw [if_pos (show token.length + 2 + 1 = (mpPattern token).length - 2 + 1 by
    rw [mpPattern_length]; omega)]
  rw [h45c]
  rw [if_neg (not_not_intro (show (45 : Nat) = HYPHEN by decide))]
  have hnl : ¬ (pre.length + (token.length + 2) + 1 + 1 <
      (pre ++ 45 :: 45 :: (token ++ [45, 45])).length) := by omega
  conv_lhs => rw [mpLoop.eq_def]
  rw [dif_neg hnl]
  simp only [mpPrepend]
  norm_num

/-! ## Claim C2 (write-return accounting) -/

/-- C2 counterexample: a QuerystringParser with max_size 1 receives a single
2-byte write; the write succeeds and returns 2, the untruncated chunk
length, while min(len(B), max_size) = 1.  The sum of the returned values is
2, not 1. -/
theorem claim_C2_counterexample :
    (qsRun (qsFresh false (.num 1)) [[97, 98]]).map (fun r => r.2.2) = .ok 2 ∧
    min (totalLen [[97, 98]] : Int) 1 = 1 ∧ ¬((2 : Int) = 1) := by
  refine ⟨?_, by simp [totalLen], by decide⟩
  simp [qsRun, qsWrite, qsInternalWrite, qsFresh, qsLoop, qsSepPos, qsEqPos,
    byteFindFrom, byteFindIn, findByteAux, dataEvent, slice, isSepByte,
    AMPERSAND, SEMICOLON, EQSIGN, truncatedLen, pyInt, exceptBind_ok_eval,
    Except.map]

/-- C2 (amended): OctetStreamParser.write and MultipartParser._internal_write
return the truncated byte count, so over any sequence of writes with a
finite max_size M (and, for multipart, any successful run) the returned
values sum to min(len(B), M); QuerystringParser._internal_write instead
returns len(data), the untruncated chunk length, so its write returns sum
to len(B) itself whether or not truncation occurred. -/
theorem claim_C2 (M : Int) (hM : 0 ≤ M) (chunks : List Bytes) (strict : Bool)
    (token : Bytes) :
    octetRunRet (octetFresh (.num (M : ℚ))) chunks = min ((totalLen chunks : Int)) M ∧
    (∀ s' evs tot, mpRun (mpFresh token (.num (M : ℚ))) chunks = .ok (s', evs, tot) →
      (tot : Int) = min ((totalLen chunks : Int)) M) ∧
    (∀ s' evs tot, qsRun (qsFresh strict (.num (M : ℚ))) chunks = .ok (s', evs, tot) →
      tot = totalLen chunks) := by
  refine ⟨?_, ?_, ?_⟩
  · have h := octetRun_num M chunks false 0 hM
    simpa using h
  · intro s' evs tot h
    have hr := mpRun_num M chunks (mpFresh token (.num (M : ℚ))) s' evs tot rfl
      (by simpa [mpFresh] using hM) h
    simpa [mpFresh] using hr
  · intro s' evs tot h
    exact qsRun_ret chunks _ s' evs tot h

/-- C2 witness: at M = 100 the octet accounting holds on the chunk list
[[45,45,97,45,45]], the multipart accounting holds on the same successful
run with boundary token "a" (the run returns 5 = min 5 100), and the
querystring sum is the full length. -/
theorem claim_C2_witness :
    octetRunRet (octetFresh (.num ((100 : Int) : ℚ))) [[45, 45, 97, 45, 45]] =
      min ((totalLen [[45, 45, 97, 45, 45]] : Int)) 100 ∧
    ((5 : Nat) : Int) = min ((totalLen [[45, 45, 97, 45, 45]] : Int)) 100 := by
  have hrun : mpRun (mpFresh [97] (.num ((100 : Int) : ℚ))) [[45, 45, 97, 45, 45]] =
      .ok (⟨.END, 5, ⟨false, false⟩, ⟨none, none, none⟩, [97],
        .num ((100 : Int) : ℚ), 5⟩, [.endEv], 5) := by
    have h1 : ¬((100 : ℚ) < 5) := by norm_num
    simp [mpRun, mpWrite, mpInternalWrite, mpFlush, mpFresh, mpLoop, mpPartDataJump,
      mpFind, mpFindAux, mpScan, matchAt, mpDataCallback, dataEvent, slice, mpPattern,
      truncatedLen, pyInt, CR, LF, HYPHEN, COLON, SPACE, isTokenChar, mpPrepend,
      exceptBind_ok_eval, h1]
  exact ⟨(claim_C2 100 (by norm_num) [[45, 45, 97, 45, 45]] false [97]).1,
    (claim_C2 100 (by norm_num) [[45, 45, 97, 45, 45]] false [97]).2.1 _ _ _ hrun⟩

/-! ## RFC 2231 family lemmas -/

theorem dropWhile_id {p : Nat → Bool} {s : Bytes} (h : ∀ c ∈ s, p c = false) :
    s.dropWhile p = s := by
  cases s with
  | nil => rfl
  | cons c t =>
    rw [List.dropWhile_cons]
    rw [h c (by simp)]
    simp

theorem stripB_id {s : Bytes} (h : ∀ c ∈ s, isPySpace c = false) : stripB s = s := by
  unfold stripB
  rw [dropWhile_id h]
  rw [dropWhile_id (fun c hc => h c (List.mem_reverse.mp hc))]
  exact List.reverse_reverse s

theorem emailUnquote_id {s : Bytes} (h34 : s.head? ≠ some 34) (h60 : s.head? ≠ some 60) :
    emailUnquote s = s := by
  unfold emailUnquote
  split
  · rw [if_neg (fun hc => h34 hc.1), if_neg (fun hc => h60 hc.1)]
  · rfl

theorem drop_append_cons (l : Bytes) (c : Nat) (r : Bytes) :
    (l ++ c :: r).drop (l.length + 1) = r := by
  induction l with
  | nil => simp
  | cons x t ih =>
    simp only [List.length_cons, List.cons_append, List.drop_succ_cons]
    exact ih

theorem escMap_append (f : Nat → Bytes) (l r : Bytes) :
    escMap f (l ++ r) = escMap f l ++ escMap f r := by
  induction l with
  | nil => rfl
  | cons c t ih => simp [escMap, ih]

theorem quoteBS_cons (c : Nat) (t : Bytes) :
    quoteBS (c :: t) =
      (if c = 92 then [92, 92] else if c = 34 then [92, 34] else [c]) ++ quoteBS t := rfl

theorem quoteBS_id {l : Bytes} (h : ∀ c ∈ l, c ≠ 92 ∧ c ≠ 34) : quoteBS l = l := by
  induction l with
  | nil => rfl
  | cons c t ih =>
    obtain ⟨h92, h34⟩ := h c (by simp)
    rw [quoteBS_cons, if_neg h92, if_neg h34, List.singleton_append,
      ih (fun x hx => h x (by simp [hx]))]

theorem pctDecode_cons_ne {c : Nat} (hc : c ≠ 37) (rest : Bytes) :
    pctDecode (c :: rest) = c :: pctDecode rest := by
  rw [pctDecode.eq_def]
  split <;> simp_all

theorem pctDecode_append_clean {l : Bytes} (r : Bytes) (h : ∀ c ∈ l, c ≠ 37) :
    pctDecode (l ++ r) = l ++ pctDecode r := by
  induction l with
  | nil => rfl
  | cons c t ih =>
    have hc : c ≠ 37 := h c (by simp)
    rw [List.cons_append, pctDecode_cons_ne hc, ih (fun x hx => h x (by simp [hx])),
      List.cons_append]

theorem replacePair_cons₂ (a b c x y : Nat) (rest : Bytes) :
    replacePair a b c (x :: y :: rest) =
      if x = a ∧ y = b then c :: replacePair a b c rest
      else x :: replacePair a b c (y :: rest) := by
  rw [replacePair.eq_def]

theorem replacePair_cons_ne (a b c x : Nat) (h : x ≠ a) (xs : Bytes) :
    replacePair a b c (x :: xs) = x :: replacePair a b c xs := by
  cases xs with
  | nil => rfl
  | cons y ys =>
    rw [replacePair_cons₂, if_neg (fun hc => h hc.1)]

/-- The single-escape map that remains after undoing doubled backslashes. -/
def esc34 (c : Nat) : Bytes := if c = 34 then [92, 34] else [c]

theorem replacePair_bs_quote (d : Bytes) :
    replacePair 92 92 92 (quoteBS d) = escMap esc34 d := by
  induction d with
  | nil => rfl
  | cons c t ih =>
    rw [quoteBS_cons]
    by_cases h92 : c = 92
    · subst h92
      rw [if_pos rfl]
      rw [show ([92, 92] : Bytes) ++ quoteBS t = 92 :: 92 :: quoteBS t from rfl]
      rw [replacePair_cons₂, if_pos ⟨rfl, rfl⟩, ih]
      rw [show escMap esc34 (92 :: t) = 92 :: escMap esc34 t from rfl]
    · by_cases h34 : c = 34
      · subst h34
        rw [if_neg (by decide), if_pos rfl]
        rw [show ([92, 34] : Bytes) ++ quoteBS t = 92 :: 34 :: quoteBS t from rfl]
        rw [replacePair_cons₂, if_neg (by decide)]
        rw [replacePair_cons_ne _ _ _ _ (by decide), ih]
        rw [show escMap esc34 (34 :: t) = 92 :: 34 :: escMap esc34 t from rfl]
      · rw [if_neg h92, if_neg h34, List.singleton_append]
        rw [replacePair_cons_ne _ _ _ _ h92, ih]
        rw [show escMap esc34 (c :: t) = esc34 c ++ escMap esc34 t from rfl]
        rw [esc34, if_neg h34, List.singleton_append]

theorem escMap_esc34_head (d : Bytes) : (escMap esc34 d).head? ≠ some 34 := by
  cases d with
  | nil => simp [escMap]
  | cons c t =>
    rw [show escMap esc34 (c :: t) = esc34 c ++ escMap esc34 t from rfl]
    by_cases h34 : c = 34
    · subst h34
      simp [esc34]
    · simp [esc34, if_neg h34, h34]

theorem replacePair_quote_esc34 (d : Bytes) :
    replacePair 92 34 34 (escMap esc34 d) = d := by
  induction d with
  | nil => rfl
  | cons c t ih =>
    rw [show escMap esc34 (c :: t) = esc34 c ++ escMap esc34 t from rfl]
    by_cases h34 : c = 34
    · subst h34
      rw [esc34, if_pos rfl]
      rw [show ([92, 34] : Bytes) ++ escMap esc34 t = 92 :: 34 :: escMap esc34 t from rfl]
      rw [replacePair_cons₂, if_pos ⟨rfl, rfl⟩, ih]
    · rw [esc34, if_neg h34]
      by_cases h92 : c = 92
      · subst h92
        cases hE : escMap esc34 t with
        | nil =>
          rw [hE] at ih
          have ht : t = [] := ih.symm.trans (by rfl)
          subst ht
          rfl
        | cons y ys =>
          have hy : y ≠ 34 := by
            have hh := escMap_esc34_head t
            rw [hE] at hh
            simpa using hh
          rw [List.singleton_append]
          rw [replacePair_cons₂, if_neg (fun hc => hy hc.2)]
          rw [← hE, ih]
      · rw [List.singleton_append, replacePair_cons_ne _ _ _ _ h92, ih]

theorem emailUnquote_roundtrip (d : Bytes) :
    emailUnquote (34 :: quoteBS d ++ [34]) = d := by
  unfold emailUnquote
  rw [if_pos (by simp)]
  rw [if_pos ⟨rfl, by rw [show (34 : Nat) :: quoteBS d ++ [34] = ((34 :: quoteBS d) ++ [34]) from by simp, List.getLast?_concat]⟩]
  have h1 : ((34 :: quoteBS d ++ [34]).drop 1).dropLast = quoteBS d := by
    simp
  rw [h1, replacePair_bs_quote, replacePair_quote_esc34]

theorem filter_beq_nil {b : Nat} {l : Bytes} (h : ∀ c ∈ l, c ≠ b) :
    l.filter (fun c => c == b) = [] := by
  induction l with
  | nil => rfl
  | cons c t ih =>
    rw [List.filter_cons]
    rw [show ((c == b) = false) from beq_eq_false_iff_ne.mpr (h c (by simp))]
    exact ih (fun x hx => h x (by simp [hx]))

theorem countPairB_cons₂ (a b x y : Nat) (rest : Bytes) :
    countPairB a b (x :: y :: rest) =
      if x = a ∧ y = b then 1 + countPairB a b rest
      else countPairB a b (y :: rest) := by
  rw [countPairB.eq_def]

theorem countPairB_no_b {a b : Nat} :
    ∀ {l : Bytes}, (∀ c ∈ l, c ≠ b) → countPairB a b l = 0 := by
  intro l
  induction l with
  | nil => intro _; rfl
  | cons x t ih =>
    intro h
    cases t with
    | nil => rfl
    | cons y u =>
      rw [countPairB_cons₂, if_neg (fun hc => (h y (by simp)) hc.2)]
      exact ih (fun c hc => h c (by simp [hc]))

/-- With no double quote anywhere in the chunk the parity loop of
_parseparam never moves the end. -/
theorem parseparamEnd_id (fuel : Nat) (s1 : Bytes) (e : Option Nat)
    (h34 : ∀ c ∈ s1, c ≠ 34) : parseparamEnd fuel s1 e = e := by
  cases fuel with
  | zero => rfl
  | succ m =>
    cases e with
    | none => rfl
    | some p =>
      have hcb : countByteTo 34 s1 p = 0 := by
        unfold countByteTo
        rw [filter_beq_nil (fun c hc => h34 c (List.mem_of_mem_take hc))]
        rfl
      have hcp : countPairTo 92 34 s1 p = 0 := by
        unfold countPairTo
        exact countPairB_no_b (fun c hc => h34 c (List.mem_of_mem_take hc))
      unfold parseparamEnd
      dsimp only
      rw [hcb, hcp]
      norm_num

theorem parseparamAux_nil (fuel : Nat) : parseparamAux fuel [] = [] := by
  cases fuel with
  | zero => rfl
  | succ m =>
    unfold parseparamAux
    rw [if_neg (by simp)]

theorem decodeRfc2231_family (charset lang v : Bytes)
    (hcs : ∀ c ∈ charset, c ≠ 39) (hln : ∀ c ∈ lang, c ≠ 39) :
    decodeRfc2231 (charset ++ 39 :: (lang ++ 39 :: v)) = (some charset, some lang, v) := by
  have hf1 : byteFindFrom (charset ++ 39 :: (lang ++ 39 :: v)) 39 0 = some charset.length := by
    unfold byteFindFrom
    rw [List.drop_zero]
    have := findByteAux_append (b := 39) (lang ++ 39 :: v) 0 hcs
    simpa using this
  have hdrop : (charset ++ 39 :: (lang ++ 39 :: v)).drop (charset.length + 1) =
      lang ++ 39 :: v := drop_append_cons charset 39 (lang ++ 39 :: v)
  have hf2 : byteFindFrom (charset ++ 39 :: (lang ++ 39 :: v)) 39 (charset.length + 1) =
      some (charset.length + 1 + lang.length) := by
    unfold byteFindFrom
    rw [hdrop]
    exact findByteAux_append (b := 39) v (charset.length + 1) hln
  have hs1 : slice (charset ++ 39 :: (lang ++ 39 :: v)) 0 charset.length = charset := by
    unfold slice
    rw [List.drop_zero, Nat.sub_zero]
    exact List.take_left charset _
  have hs2 : slice (charset ++ 39 :: (lang ++ 39 :: v)) (charset.length + 1)
      (charset.length + 1 + lang.length) = lang := by
    unfold slice
    rw [hdrop]
    have he : charset.length + 1 + lang.length - (charset.length + 1) = lang.length := by
      omega
    rw [he]
    exact List.take_left lang _
  have hs3 : slice (charset ++ 39 :: (lang ++ 39 :: v))
      (charset.length + 1 + lang.length + 1)
      (charset ++ 39 :: (lang ++ 39 :: v)).length = v := by
    unfold slice
    have he : charset.length + 1 + lang.length + 1 =
        (charset.length + 1) + (lang.length + 1) := by omega
    rw [he, ← List.drop_drop, hdrop]
    have he2 : (lang ++ 39 :: v).drop (lang.length + 1) = v := drop_append_cons lang 39 v
    rw [he2]
    have he3 : (charset ++ 39 :: (lang ++ 39 :: v)).length -
        (charset.length + 1 + (lang.length + 1)) = v.length := by
      simp [List.length_append]
      omega
    rw [he3]
    exact List.take_length v
  unfold decodeRfc2231
  rw [hf1]
  dsimp only
  rw [hf2]
  dsimp only
  rw [hs1, hs2, hs3]

/-- _parseparam on a two-parameter header ct; filename*=enc with a
quote-free ct and encoded value: exactly the two stripped parameter
strings come back. -/
theorem parseparam_two (ct enc : Bytes)
    (hct : ∀ c ∈ ct, c ≠ 59 ∧ c ≠ 34 ∧ c ≠ 61 ∧ isPySpace c = false)
    (henc : ∀ c ∈ enc, c ≠ 59 ∧ c ≠ 34 ∧ isPySpace c = false) :
    parseparam (ct ++ 59 :: 32 :: ([102, 105, 108, 101, 110, 97, 109, 101, 42] ++ 61 :: enc)) =
      [ct, [102, 105, 108, 101, 110, 97, 109, 101, 42] ++ 61 :: enc] := by
  have hct59 : ∀ c ∈ ct, c ≠ 59 := fun c hc => (hct c hc).1
  have hsplitX : ∀ c : Nat,
      c ∈ (59 : Nat) :: 32 :: (([102, 105, 108, 101, 110, 97, 109, 101, 42] : Bytes) ++ 61 :: enc) →
      c ∈ ([59, 32, 102, 105, 108, 101, 110, 97, 109, 101, 42, 61] : Bytes) ∨ c ∈ enc := by
    intro c hc
    simp only [List.mem_cons, List.mem_append] at hc ⊢
    tauto
  have h34X : ∀ c ∈ (59 : Nat) :: 32 :: (([102, 105, 108, 101, 110, 97, 109, 101, 42] : Bytes) ++ 61 :: enc), c ≠ 34 := by
    intro c hc
    rcases hsplitX c hc with h2 | h2
    · fin_cases h2 <;> decide
    · exact (henc c h2).2.1
  have h34hdr : ∀ c ∈ ct ++ (59 : Nat) :: 32 :: (([102, 105, 108, 101, 110, 97, 109, 101, 42] : Bytes) ++ 61 :: enc), c ≠ 34 := by
    intro c hc
    rcases List.mem_append.mp hc with h | h
    · exact (hct c h).2.1
    · exact h34X c h
  have h59X : ∀ c ∈ (32 : Nat) :: (([102, 105, 108, 101, 110, 97, 109, 101, 42] : Bytes) ++ 61 :: enc), c ≠ 59 := by
    intro c hc
    rcases List.mem_cons.mp hc with rfl | h2
    · decide
    · rcases List.mem_append.mp h2 with h3 | h3
      · fin_cases h3 <;> decide
      · rcases List.mem_cons.mp h3 with rfl | h4
        · decide
        · exact (henc c h4).1
  have h34X2 : ∀ c ∈ (32 : Nat) :: (([102, 105, 108, 101, 110, 97, 109, 101, 42] : Bytes) ++ 61 :: enc), c ≠ 34 := by
    intro c hc
    exact h34X c (by simp only [List.mem_cons] at hc ⊢; tauto)
  have hspX : ∀ c ∈ ([102, 105, 108, 101, 110, 97, 109, 101, 42] : Bytes) ++ 61 :: enc, isPySpace c = false := by
    intro c hc
    rcases List.mem_append.mp hc with h2 | h2
    · fin_cases h2 <;> decide
    · rcases List.mem_cons.mp h2 with rfl | h3
      · decide
      · exact (henc c h3).2.2
  have hfind1 : byteFindFrom (ct ++ 59 :: 32 :: ([102, 105, 108, 101, 110, 97, 109, 101, 42] ++ 61 :: enc)) 59 0 = some ct.length := by
    unfold byteFindFrom
    rw [List.drop_zero]
    have := findByteAux_append (b := 59) (32 :: ([102, 105, 108, 101, 110, 97, 109, 101, 42] ++ 61 :: enc)) 0 hct59
    simpa using this
  have hend1 := parseparamEnd_id
    ((ct ++ 59 :: 32 :: ([102, 105, 108, 101, 110, 97, 109, 101, 42] ++ 61 :: enc)).length + 1)
    (ct ++ 59 :: 32 :: ([102, 105, 108, 101, 110, 97, 109, 101, 42] ++ 61 :: enc))
    (some ct.length) h34hdr
  have hslice1 : slice (ct ++ 59 :: 32 :: ([102, 105, 108, 101, 110, 97, 109, 101, 42] ++ 61 :: enc)) 0 ct.length = ct := by
    unfold slice
    rw [List.drop_zero, Nat.sub_zero]
    exact List.take_left ct _
  have h61ct : ¬ (61 : Nat) ∈ ct := fun h => ((hct 61 h).2.2.1) rfl
  have hstrip_ct : stripB ct = ct := stripB_id (fun c hc => (hct c hc).2.2.2)
  have hdropct : (ct ++ 59 :: 32 :: ([102, 105, 108, 101, 110, 97, 109, 101, 42] ++ 61 :: enc)).drop ct.length = 59 :: 32 :: ([102, 105, 108, 101, 110, 97, 109, 101, 42] ++ 61 :: enc) :=
    List.drop_left ct _
  have hfind2 : byteFindFrom (32 :: ([102, 105, 108, 101, 110, 97, 109, 101, 42] ++ 61 :: enc)) 59 0 = none := by
    unfold byteFindFrom
    rw [List.drop_zero]
    exact findByteAux_none 0 h59X
  have hend2 := parseparamEnd_id
    ((32 :: ([102, 105, 108, 101, 110, 97, 109, 101, 42] ++ 61 :: enc)).length + 1)
    (32 :: ([102, 105, 108, 101, 110, 97, 109, 101, 42] ++ 61 :: enc)) none h34X2
  have hsliceF : slice (32 :: ([102, 105, 108, 101, 110, 97, 109, 101, 42] ++ 61 :: enc)) 0
      (32 :: ([102, 105, 108, 101, 110, 97, 109, 101, 42] ++ 61 :: enc)).length =
      32 :: ([102, 105, 108, 101, 110, 97, 109, 101, 42] ++ 61 :: enc) := by
    unfold slice
    rw [List.drop_zero, Nat.sub_zero]
    exact List.take_length _
  have hmem61 : (61 : Nat) ∈ 32 :: ([102, 105, 108, 101, 110, 97, 109, 101, 42] ++ 61 :: enc) := by
    simp
  have hfind61 : byteFindFrom (32 :: ([102, 105, 108, 101, 110, 97, 109, 101, 42] ++ 61 :: enc)) 61 0 = some 10 := by
    unfold byteFindFrom
    rw [List.drop_zero]
    rw [show (32 : Nat) :: ([102, 105, 108, 101, 110, 97, 109, 101, 42] ++ 61 :: enc) =
      ([32, 102, 105, 108, 101, 110, 97, 109, 101, 42] : Bytes) ++ 61 :: enc from by simp]
    have := findByteAux_append (b := 61) (l := [32, 102, 105, 108, 101, 110, 97, 109, 101, 42]) enc 0 (by decide)
    simpa using this
  have hsliceA : slice (32 :: ([102, 105, 108, 101, 110, 97, 109, 101, 42] ++ 61 :: enc)) 0 10 =
      32 :: [102, 105, 108, 101, 110, 97, 109, 101, 42] := by
    unfold slice
    rw [List.drop_zero, Nat.sub_zero]
    rw [show (32 : Nat) :: ([102, 105, 108, 101, 110, 97, 109, 101, 42] ++ 61 :: enc) =
      ([32, 102, 105, 108, 101, 110, 97, 109, 101, 42] : Bytes) ++ 61 :: enc from by simp]
    have h10 : (10 : Nat) = ([32, 102, 105, 108, 101, 110, 97, 109, 101, 42] : Bytes).length := rfl
    rw [h10, List.take_left]
  have hsliceB : slice (32 :: ([102, 105, 108, 101, 110, 97, 109, 101, 42] ++ 61 :: enc)) (10 + 1)
      (32 :: ([102, 105, 108, 101, 110, 97, 109, 101, 42] ++ 61 :: enc)).length = enc := by
    unfold slice
    rw [show (32 : Nat) :: ([102, 105, 108, 101, 110, 97, 109, 101, 42] ++ 61 :: enc) =
      ([32, 102, 105, 108, 101, 110, 97, 109, 101, 42] : Bytes) ++ 61 :: enc from by simp]
    have h11 : (10 + 1 : Nat) = ([32, 102, 105, 108, 101, 110, 97, 109, 101, 42] : Bytes).length + 1 := rfl
    rw [h11, drop_append_cons]
    have h3 : (([32, 102, 105, 108, 101, 110, 97, 109, 101, 42] : Bytes) ++ 61 :: enc).length -
        (([32, 102, 105, 108, 101, 110, 97, 109, 101, 42] : Bytes).length + 1) = enc.length := by
      simp
    rw [h3]
    exact List.take_length enc
  have hstripA : stripB (lowerBytes (32 :: [102, 105, 108, 101, 110, 97, 109, 101, 42])) =
      [102, 105, 108, 101, 110, 97, 109, 101, 42] := by decide
  have hstrip_enc : stripB enc = enc := stripB_id (fun c hc => (henc c hc).2.2)
  have hstripf2 : stripB ([102, 105, 108, 101, 110, 97, 109, 101, 42] ++ 61 :: enc) =
      [102, 105, 108, 101, 110, 97, 109, 101, 42] ++ 61 :: enc := stripB_id hspX
  have hfuel : (ct ++ 59 :: 32 :: ([102, 105, 108, 101, 110, 97, 109, 101, 42] ++ 61 :: enc)).length + 2 =
      ((ct ++ 59 :: 32 :: ([102, 105, 108, 101, 110, 97, 109, 101, 42] ++ 61 :: enc)).length + 1) + 1 := rfl
  unfold parseparam
  rw [hfuel]
  have hhead1 : ((59 : Nat) :: (ct ++ 59 :: 32 :: ([102, 105, 108, 101, 110, 97, 109, 101, 42] ++ 61 :: enc))).head? = some 59 := rfl
  rw [parseparamAux.eq_def]
  dsimp only
  rw [if_pos hhead1]
  simp only [List.drop_succ_cons, List.drop_zero]
  rw [hfind1, hend1]
  dsimp only
  rw [hslice1]
  rw [if_neg h61ct]
  rw [hstrip_ct, hdropct]
  have hhead2 : ((59 : Nat) :: 32 :: ([102, 105, 108, 101, 110, 97, 109, 101, 42] ++ 61 :: enc)).head? = some 59 := rfl
  rw [parseparamAux.eq_def]
  dsimp only
  rw [if_pos hhead2]
  simp only [List.drop_succ_cons, List.drop_zero]
  rw [hfind2, hend2]
  dsimp only
  rw [hsliceF]
  rw [if_pos hmem61]
  rw [hfind61]
  dsimp only
  rw [hsliceA, hsliceB]
  rw [hstripA, hstrip_enc, hstripf2]
  rw [List.drop_length]
  rw [parseparamAux_nil]

theorem quoteBS_append (l r : Bytes) : quoteBS (l ++ r) = quoteBS l ++ quoteBS r :=
  escMap_append _ l r

theorem paramSplit_bare (ct : Bytes)
    (hct : ∀ c ∈ ct, c ≠ 61 ∧ isPySpace c = false) :
    paramSplit ct = (ct, []) := by
  unfold paramSplit
  have hfind : byteFindFrom ct 61 0 = none := by
    unfold byteFindFrom
    rw [List.drop_zero]
    exact findByteAux_none 0 (fun c hc => (hct c hc).1)
  rw [hfind]
  rw [stripB_id (fun c hc => (hct c hc).2)]

theorem paramSplit_fname (enc : Bytes)
    (henc : ∀ c ∈ enc, isPySpace c = false) :
    paramSplit ([102, 105, 108, 101, 110, 97, 109, 101, 42] ++ 61 :: enc) =
      ([102, 105, 108, 101, 110, 97, 109, 101, 42], enc) := by
  unfold paramSplit
  have hfind : byteFindFrom ([102, 105, 108, 101, 110, 97, 109, 101, 42] ++ 61 :: enc) 61 0 =
      some 9 := by
    unfold byteFindFrom
    rw [List.drop_zero]
    have := findByteAux_append (b := 61) (l := [102, 105, 108, 101, 110, 97, 109, 101, 42])
      enc 0 (by decide)
    simpa using this
  rw [hfind]
  dsimp only
  have hsA : slice ([102, 105, 108, 101, 110, 97, 109, 101, 42] ++ 61 :: enc) 0 9 =
      [102, 105, 108, 101, 110, 97, 109, 101, 42] := by
    unfold slice
    rw [List.drop_zero, Nat.sub_zero]
    have h9 : (9 : Nat) = ([102, 105, 108, 101, 110, 97, 109, 101, 42] : Bytes).length := rfl
    rw [h9, List.take_left]
  have hsB : slice ([102, 105, 108, 101, 110, 97, 109, 101, 42] ++ 61 :: enc) (9 + 1)
      ([102, 105, 108, 101, 110, 97, 109, 101, 42] ++ 61 :: enc).length = enc := by
    unfold slice
    have h10 : (9 + 1 : Nat) = ([102, 105, 108, 101, 110, 97, 109, 101, 42] : Bytes).length + 1 := rfl
    rw [h10, drop_append_cons]
    have h3 : (([102, 105, 108, 101, 110, 97, 109, 101, 42] : Bytes) ++ 61 :: enc).length -
        (([102, 105, 108, 101, 110, 97, 109, 101, 42] : Bytes).length + 1) = enc.length := by
      simp
    rw [h3]
    exact List.take_length enc
  rw [hsA, hsB]
  have hstripA : stripB [102, 105, 108, 101, 110, 97, 109, 101, 42] =
      [102, 105, 108, 101, 110, 97, 109, 101, 42] := by decide
  rw [hstripA, stripB_id henc]

/-- decode_params followed by the get_params unquote on the two-parameter
family: the extended filename parameter is percent-decoded, split at its
two ticks, and collapses back to its decoded value. -/
theorem decodeParams_family (ct charset lang pct : Bytes)
    (hcs : ∀ c ∈ charset, c ≠ 39 ∧ c ≠ 37 ∧ c ≠ 92 ∧ c ≠ 34 ∧ c ≠ 60)
    (hlang : ∀ c ∈ lang, c ≠ 39 ∧ c ≠ 37 ∧ c ≠ 92 ∧ c ≠ 34) :
    (decodeParams [(ct, []), ([102, 105, 108, 101, 110, 97, 109, 101, 42],
        charset ++ 39 :: (lang ++ 39 :: pct))]).map (fun p => (p.1, unquoteValue p.2)) =
      [(ct, PVal.plain []),
       (fnameKey, PVal.ext (some charset) (some lang) (pctDecode pct))] := by
  have hhead : (charset ++ 39 :: (lang ++ 39 :: pct)).head? ≠ some 34 ∧
      (charset ++ 39 :: (lang ++ 39 :: pct)).head? ≠ some 60 := by
    cases charset with
    | nil => simp
    | cons c0 cs0 =>
      have h0 := hcs c0 (by simp)
      simp only [List.cons_append, List.head?_cons]
      constructor
      · intro hc
        exact h0.2.2.2.1 (by injection hc)
      · intro hc
        exact h0.2.2.2.2 (by injection hc)
  have huq : emailUnquote (charset ++ 39 :: (lang ++ 39 :: pct)) =
      charset ++ 39 :: (lang ++ 39 :: pct) := emailUnquote_id hhead.1 hhead.2
  have hm : rfc2231Match [102, 105, 108, 101, 110, 97, 109, 101, 42] =
      some (fnameKey, none) := by decide
  have hd : pctDecode (charset ++ 39 :: (lang ++ 39 :: pct)) =
      charset ++ 39 :: (lang ++ 39 :: pctDecode pct) := by
    have hassoc : charset ++ 39 :: (lang ++ 39 :: pct) =
        (charset ++ 39 :: (lang ++ [39])) ++ pct := by simp
    rw [hassoc]
    rw [pctDecode_append_clean pct (by
      intro c hc
      rcases List.mem_append.mp hc with h | h
      · exact (hcs c h).2.1
      · rcases List.mem_cons.mp h with rfl | h2
        · decide
        · rcases List.mem_append.mp h2 with h3 | h3
          · exact (hlang c h3).2.1
          · rcases List.mem_cons.mp h3 with rfl | h4
            · decide
            · cases h4)]
    simp
  have hq : quoteBS (charset ++ 39 :: (lang ++ 39 :: pctDecode pct)) =
      charset ++ 39 :: (lang ++ 39 :: quoteBS (pctDecode pct)) := by
    rw [quoteBS_append, quoteBS_id (fun c hc => ⟨(hcs c hc).2.2.1, (hcs c hc).2.2.2.1⟩)]
    rw [quoteBS_cons]
    rw [if_neg (by decide), if_neg (by decide)]
    rw [quoteBS_append, quoteBS_id (fun c hc => ⟨(hlang c hc).2.2.1, (hlang c hc).2.2.2⟩)]
    rw [quoteBS_cons]
    rw [if_neg (by decide), if_neg (by decide)]
    simp
  have hrfc := decodeRfc2231_family charset lang (quoteBS (pctDecode pct))
    (fun c hc => (hcs c hc).1) (fun c hc => (hlang c hc).1)
  unfold decodeParams
  dsimp only
  simp only [List.foldl_cons, List.foldl_nil]
  rw [huq, hm]
  dsimp only
  have hlast : (([102, 105, 108, 101, 110, 97, 109, 101, 42] : Bytes).getLast? == some 42) = true := by
    decide
  rw [hlast]
  simp only [addGroup, List.map_cons, List.map_nil]
  unfold decodeGroup
  dsimp only
  have hsort : sortConts [(none, charset ++ 39 :: (lang ++ 39 :: pct), true)] =
      [(none, charset ++ 39 :: (lang ++ 39 :: pct), true)] := rfl
  rw [hsort]
  simp only [List.map_cons, List.map_nil, List.any_cons, List.any_nil, if_pos rfl,
    List.flatten_cons, List.flatten_nil, List.append_nil]
  rw [hd]
  have htr : (true || false) = true := rfl
  have hT : (if True then charset ++ 39 :: (lang ++ 39 :: pctDecode pct)
      else charset ++ 39 :: (lang ++ 39 :: pct)) =
      charset ++ 39 :: (lang ++ 39 :: pctDecode pct) := if_pos trivial
  rw [hT]
  rw [if_pos htr]
  rw [hq, hrfc]
  dsimp only
  simp only [List.singleton_append, List.map_cons, List.map_nil, unquoteValue]
  rw [emailUnquote_roundtrip]
  have hnil : emailUnquote ([] : Bytes) = [] := rfl
  rw [hnil]

/-! ## Claim C9 (empty body: opening boundary immediately terminated) -/

/-- C9: for every boundary token, a body that is an optional run of CR/LF
bytes followed by "--token--" is accepted by a single write to a fresh
MultipartParser: it emits exactly the end event (in particular no
part_begin, part_data or part_end), raises no error, and leaves the machine
in the END state. -/
theorem claim_C9 (token pre : Bytes) (hpre : ∀ b ∈ pre, b = CR ∨ b = LF) :
    mpWrite (mpFresh token .inf) (pre ++ 45 :: 45 :: (token ++ [45, 45])) =
      .ok (⟨.END, token.length + 4, ⟨false, false⟩, ⟨none, none, none⟩, token, .inf,
        ((pre ++ 45 :: 45 :: (token ++ [45, 45])).length : Int)⟩, [.endEv],
        (pre ++ 45 :: 45 :: (token ++ [45, 45])).length) := by
  unfold mpWrite mpInternalWrite
  dsimp only [mpFresh, truncatedLen]
  rw [Int.toNat_natCast]
  rw [mpLoop_open_close token pre hpre]
  dsimp only [mpFlush, mpDataCallback]
  norm_num

/-- C9 witness: boundary token "a" with a leading CRLF pair; the write
returns end only and the machine rests in END. -/
theorem claim_C9_witness :
    mpWrite (mpFresh [97] .inf) [13, 10, 45, 45, 97, 45, 45] =
      .ok (⟨.END, 5, ⟨false, false⟩, ⟨none, none, none⟩, [97], .inf, (7 : Int)⟩,
        [.endEv], 7) :=
  claim_C9 [97] [13, 10] (by decide)

/-! ## Claim C10 (constructor max_size validation) -/

/-- C10: constructing any of OctetStreamParser, QuerystringParser or
MultipartParser with a max_size that is not a Number or is a number below 1
raises ValueError and yields no parser object; with any number at least 1
(including float infinity) all three constructions succeed and return the
fresh parser state. -/
theorem claim_C10 (m : PyMaxArg) (strict : Bool) (token : Bytes) :
    ((m = .notNum ∨ ∃ q, m = .num q ∧ q < 1) →
      octetInit m = .error () ∧ qsInit strict m = .error () ∧
      mpInit token m = .error ()) ∧
    ((m = .inf ∨ ∃ q, m = .num q ∧ 1 ≤ q) →
      octetInit m = .ok (octetFresh m.toMaxSize) ∧
      qsInit strict m = .ok (qsFresh strict m.toMaxSize) ∧
      mpInit token m = .ok (mpFresh token m.toMaxSize)) := by
  constructor
  · rintro (rfl | ⟨q, rfl, hq⟩)
    · simp [octetInit, qsInit, mpInit, PyMaxArg.isNumber, PyMaxArg.ltOne]
    · simp [octetInit, qsInit, mpInit, PyMaxArg.isNumber, PyMaxArg.ltOne, hq]
  · rintro (rfl | ⟨q, rfl, hq⟩)
    · simp [octetInit, qsInit, mpInit, PyMaxArg.isNumber, PyMaxArg.ltOne]
    · simp [octetInit, qsInit, mpInit, PyMaxArg.isNumber, PyMaxArg.ltOne,
        not_lt.mpr hq]

/-- C10 witness: max_size 1/2 is rejected, float infinity and 7 are
accepted, a non-Number is rejected. -/
theorem claim_C10_witness :
    octetInit (.num (1/2)) = .error () ∧
    qsInit false .notNum = .error () ∧
    mpInit [98] (.num 7) = .ok (mpFresh [98] (.num 7)) ∧
    octetInit .inf = .ok (octetFresh .inf) :=
  ⟨((claim_C10 (.num (1/2)) false []).1 (Or.inr ⟨1/2, rfl, by norm_num⟩)).1,
   ((claim_C10 .notNum false []).1 (Or.inl rfl)).2.1,
   ((claim_C10 (.num 7) false [98]).2 (Or.inr ⟨7, rfl, by norm_num⟩)).2.2,
   ((claim_C10 .inf false []).2 (Or.inl rfl)).1⟩

/-! ## Claim C6 (RFC 2231 extended filename parameter) -/

/-- C6 counterexample: in the header a/b; filename*=\'\'C%3A%5Cfoo%5Cbar.txt
the percent-decoded value is C:\\foo\\bar.txt, but the options mapping
stores b"bar.txt" under b"filename": the IE6 path heuristic of
parse_options_header is applied to the decoded value, so the claim that the
decoded result itself is stored fails. -/
theorem claim_C6_counterexample :
    optionsGet (parse_options_header
      [97, 47, 98, 59, 32, 102, 105, 108, 101, 110, 97, 109, 101, 42, 61, 39, 39,
       67, 37, 51, 65, 37, 53, 67, 102, 111, 111, 37, 53, 67, 98, 97, 114, 46, 116,
       120, 116]).2 fnameKey = some [98, 97, 114, 46, 116, 120, 116] ∧
    pctDecode [67, 37, 51, 65, 37, 53, 67, 102, 111, 111, 37, 53, 67, 98, 97, 114,
      46, 116, 120, 116] = [67, 58, 92, 102, 111, 111, 92, 98, 97, 114, 46, 116, 120, 116] ∧
    ¬ ((some [98, 97, 114, 46, 116, 120, 116] : Option Bytes) =
      some [67, 58, 92, 102, 111, 111, 92, 98, 97, 114, 46, 116, 120, 116]) := by
  refine ⟨by decide, by decide, by decide⟩

/-- C6 (amended): for a header ct; filename*=charset\'lang\'pct from the
structured family (no quotes, semicolons or whitespace in the pieces; the
charset and language free of ticks, percent signs and backslashes),
parse_options_header drops the charset and language, percent-decodes pct
as latin-1, and stores the result under the unstarred key b"filename" -
after applying the IE6 path fixup to the decoded value, which truncates a
decoded value that looks like a Windows path to its final component
instead of storing the decoded result itself. -/
theorem claim_C6 (ct charset lang pct : Bytes)
    (hct : ∀ c ∈ ct, c ≠ 59 ∧ c ≠ 34 ∧ c ≠ 61 ∧ isPySpace c = false)
    (hcs : ∀ c ∈ charset, c ≠ 59 ∧ c ≠ 34 ∧ c ≠ 39 ∧ c ≠ 37 ∧ c ≠ 92 ∧ c ≠ 60 ∧
      isPySpace c = false)
    (hlang : ∀ c ∈ lang, c ≠ 59 ∧ c ≠ 34 ∧ c ≠ 39 ∧ c ≠ 37 ∧ c ≠ 92 ∧ isPySpace c = false)
    (hpct : ∀ c ∈ pct, c ≠ 59 ∧ c ≠ 34 ∧ isPySpace c = false) :
    parse_options_header (ct ++ 59 :: 32 :: ([102, 105, 108, 101, 110, 97, 109, 101, 42] ++
        61 :: (charset ++ 39 :: (lang ++ 39 :: pct)))) =
      (ct, [(fnameKey, ie6Adjust (pctDecode pct))]) := by
  have henc : ∀ c ∈ charset ++ 39 :: (lang ++ 39 :: pct),
      c ≠ 59 ∧ c ≠ 34 ∧ isPySpace c = false := by
    intro c hc
    rcases List.mem_append.mp hc with h | h
    · exact ⟨(hcs c h).1, (hcs c h).2.1, (hcs c h).2.2.2.2.2.2⟩
    · rcases List.mem_cons.mp h with rfl | h2
      · exact ⟨by decide, by decide, by decide⟩
      · rcases List.mem_append.mp h2 with h3 | h3
        · exact ⟨(hlang c h3).1, (hlang c h3).2.1, (hlang c h3).2.2.2.2.2⟩
        · rcases List.mem_cons.mp h3 with rfl | h4
          · exact ⟨by decide, by decide, by decide⟩
          · exact hpct c h4
  unfold parse_options_header
  have hne : ¬ (ct ++ 59 :: 32 :: ([102, 105, 108, 101, 110, 97, 109, 101, 42] ++
      61 :: (charset ++ 39 :: (lang ++ 39 :: pct)))) = [] := by simp
  rw [if_neg hne]
  have hmem : (59 : Nat) ∈ ct ++ 59 :: 32 :: ([102, 105, 108, 101, 110, 97, 109, 101, 42] ++
      61 :: (charset ++ 39 :: (lang ++ 39 :: pct))) := by simp
  rw [if_neg (not_not_intro hmem)]
  unfold getParams
  rw [parseparam_two ct (charset ++ 39 :: (lang ++ 39 :: pct)) hct henc]
  simp only [List.map_cons, List.map_nil]
  rw [paramSplit_bare ct (fun c hc => ⟨(hct c hc).2.2.1, (hct c hc).2.2.2⟩)]
  rw [paramSplit_fname (charset ++ 39 :: (lang ++ 39 :: pct))
    (fun c hc => (henc c hc).2.2)]
  rw [decodeParams_family ct charset lang pct
    (fun c hc => ⟨(hcs c hc).2.2.1, (hcs c hc).2.2.2.1, (hcs c hc).2.2.2.2.1,
      (hcs c hc).2.1, (hcs c hc).2.2.2.2.2.1⟩)
    (fun c hc => ⟨(hlang c hc).2.2.1, (hlang c hc).2.2.2.1, (hlang c hc).2.2.2.2.1,
      (hlang c hc).2.1⟩)]
  dsimp only
  simp [pvalBytes]

/-- C6 witness: the family instance a/b; filename*=utf-8\'en\'A%20B.txt
stores b"A B.txt" under b"filename". -/
theorem claim_C6_witness :
    parse_options_header
      [97, 47, 98, 59, 32, 102, 105, 108, 101, 110, 97, 109, 101, 42, 61, 117, 116,
       102, 45, 56, 39, 101, 110, 39, 65, 37, 50, 48, 66, 46, 116, 120, 116] =
      ([97, 47, 98], [(fnameKey, ie6Adjust (pctDecode [65, 37, 50, 48, 66, 46, 116, 120, 116]))]) := by
  have h := claim_C6 [97, 47, 98] [117, 116, 102, 45, 56] [101, 110]
    [65, 37, 50, 48, 66, 46, 116, 120, 116]
    (by decide) (by decide) (by decide) (by decide)
  simpa using h

/-! ## Claim C1 (chunking invariance of MultipartParser) -/

/-- C1: chunking invariance fails.  With boundary token CR "-" (stored
pattern CRLF--CR-) and the 15-byte body --CR-CRLF CRLF CRLF --CRLF-, a
single write and the 9/6 split of the very same bytes both succeed but
deliver different part_data payloads: the single write emits the 4
look-behind bytes CRLF-- and holds 3 bytes back (match index 3), while the
chunked feed emits all 7 bytes CR LF---CRLF- and holds nothing (match
index 0).  The two event sequences differ even after concatenating
adjacent part_data slices, and the parsers end in different internal
states on identical input bytes. -/
theorem claim_C1_code_bug :
    mpRun (mpFresh [13, 45] .inf)
        [[45, 45, 13, 45, 13, 10, 13, 10, 13, 10, 45, 45, 13, 10, 45]] =
      .ok (⟨.PART_DATA, 3, ⟨false, false⟩, ⟨none, none, some (-3)⟩, [13, 45], .inf, 15⟩,
        [.partBegin, .headersFinished, .partData [13, 10, 45, 45]], 15) ∧
    mpRun (mpFresh [13, 45] .inf)
        [[45, 45, 13, 45, 13, 10, 13, 10, 13], [10, 45, 45, 13, 10, 45]] =
      .ok (⟨.PART_DATA, 0, ⟨false, false⟩, ⟨none, none, some 0⟩, [13, 45], .inf, 15⟩,
        [.partBegin, .headersFinished, .partData [13], .partData [10, 45, 45, 13, 10, 45]],
        15) ∧
    ([45, 45, 13, 45, 13, 10, 13, 10, 13] : Bytes) ++ [10, 45, 45, 13, 10, 45] =
      [45, 45, 13, 45, 13, 10, 13, 10, 13, 10, 45, 45, 13, 10, 45] ∧
    ¬ (([13, 10, 45, 45] : Bytes) = [13] ++ [10, 45, 45, 13, 10, 45]) := by
  refine ⟨?_, ?_, by decide, by decide⟩
  · simp [mpRun, mpWrite, mpInternalWrite, mpFlush, mpFresh, mpLoop, mpPartDataJump,
      mpFind, mpFindAux, mpScan, matchAt, mpDataCallback, dataEvent, slice, mpPattern,
      truncatedLen, pyInt, CR, LF, HYPHEN, COLON, SPACE, isTokenChar, mpPrepend,
      exceptBind_ok_eval]
  · simp [mpRun, mpWrite, mpInternalWrite, mpFlush, mpFresh, mpLoop, mpPartDataJump,
      mpFind, mpFindAux, mpScan, matchAt, mpDataCallback, dataEvent, slice, mpPattern,
      truncatedLen, pyInt, CR, LF, HYPHEN, COLON, SPACE, isTokenChar, mpPrepend,
      exceptBind_ok_eval]

end PyMultipart
